import Mathlib

/-!
Verification of the OdkGraph core: a shallow embedding of the row parser,
dependency-name extraction, dependency resolution, graph construction and
the query surface, together with theorems settling the specification
claims against this embedding.

Conventions of the embedding:
- a worksheet is a list of rows, each row a list of cell strings; the
  first row is the header;
- Python dictionaries are association lists with update-in-place and
  append-at-end semantics;
- Python None is modelled with Option; a missing dictionary key yields
  none;
- Python exceptions are modelled with Except and an error type PyErr;
- object equality of rows (keyed on the pair of row number and name)
  is the boolean pyEq, used wherever the source relies on hashing or
  equality of row objects (sets, dict keys, graph nodes).
-/

/-- Errors surfaced by the embedded code, mirroring the Python exceptions:
IndexError (bad list index or pop from empty list), KeyError (missing
dictionary key, carrying the key), ValueError (list.index miss or zero
slice step), TypeError (bad key shape) and the graph library error for a
node absent from the graph. -/
inductive PyErr where
  | indexError : PyErr
  | keyError : Option String → PyErr
  | valueError : PyErr
  | typeError : PyErr
  | nxError : PyErr
deriving DecidableEq, Repr

/-- Model of Python str.strip: remove leading and trailing whitespace. -/
def pyStrip (s : String) : String :=
  String.mk (((s.data.dropWhile Char.isWhitespace).reverse.dropWhile Char.isWhitespace).reverse)

/-- Scan for the closing brace of an ODK variable reference: the regex
fragment is a non-greedy run of any characters except newline, then a
closing brace.  Returns the captured characters and the remainder after
the brace, or none when no closing brace occurs before a newline or the
end of input. -/
def scanCapture : List Char → Option (List Char × List Char)
  | [] => none
  | c :: rest =>
    if c = '}' then some ([], rest)
    else if c = '\n' then none
    else (scanCapture rest).map (fun p : List Char × List Char => (c :: p.1, p.2))

theorem scanCapture_length {l : List Char} {cap rem : List Char}
    (h : scanCapture l = some (cap, rem)) : rem.length < l.length := by
  induction l generalizing cap rem with
  | nil => simp [scanCapture] at h
  | cons c rest ih =>
    by_cases hc : c = '}'
    · simp [scanCapture, hc] at h
      simp [← h.2]
    · by_cases hn : c = '\n'
      · simp [scanCapture, hc, hn] at h
      · rw [scanCapture, if_neg hc, if_neg hn] at h
        cases hp : scanCapture rest with
        | none => rw [hp] at h; exact absurd h (by simp)
        | some p =>
          obtain ⟨p1, p2⟩ := p
          rw [hp] at h
          have h' : some ((c :: p1, p2) : List Char × List Char) = some (cap, rem) := h
          have h2 : ((c :: p1, p2) : List Char × List Char) = (cap, rem) := Option.some.inj h'
          have hrem : rem = p2 := (congrArg Prod.snd h2).symm
          have := @ih p1 p2 hp
          simp only [List.length_cons]
          rw [hrem]
          omega

/-- The scanning loop behind findall, structurally recursive on a fuel
counter so that it evaluates inside the kernel.  Every recursive call
shortens the character list by at least one, so a fuel equal to the
initial length never runs out. -/
def findallAux : Nat → List Char → List String
  | 0, _ => []
  | _ + 1, [] => []
  | fuel + 1, '$' :: '{' :: rest =>
    match scanCapture rest with
    | some (cap, rem) => String.mk cap :: findallAux fuel rem
    | none => findallAux fuel ('{' :: rest)
  | fuel + 1, _ :: rest => findallAux fuel rest

/-- Model of ODK_VAR_REGEX_PROG.findall over the characters of a cell
value: non-overlapping matches of a dollar sign, an opening brace, a
non-greedy run, and a closing brace; each capture is returned in order.
When a dollar-brace pair has no closing brace before a newline, the scan
resumes one character further, exactly as the regex engine does. -/
def findall (l : List Char) : List String := findallAux l.length l

/-- Python dict insertion: replace in place when the key is present,
append otherwise. -/
def pyDictInsert (d : List (String × String)) (k v : String) : List (String × String) :=
  if d.any (fun p => p.1 = k) then d.map (fun p => if p.1 = k then (k, v) else p)
  else d ++ [(k, v)]

/-- Build a Python dict from a list of key-value pairs (dict
comprehension over a zip: last writer wins, first occurrence fixes the
position of a key). -/
def pyDict (ps : List (String × String)) : List (String × String) :=
  ps.foldl (fun d p => pyDictInsert d p.1 p.2) []

/-- Python dict.get: the value at the key, or none. -/
def dictGet (d : List (String × String)) (k : String) : Option String :=
  (d.find? (fun p => p.1 = k)).map (fun p => p.2)

/-- Truthiness of a Python value that is either a string or None: None
and the empty string are falsy. -/
def pyTruthy : Option String → Bool
  | none => false
  | some s => s ≠ ""

/-- One parsed XlsForm row (a node of the graph).  Mirrors the fields of
the Python class set directly from the sheet: the 0-indexed row number in
the survey tab (header included), the values of the type and name
columns, the full header-to-value dictionary, and the stack of enclosing
group and repeat names at parse time (a pushed name may be Python None
when the name cell was absent). -/
structure XlsFormRow where
  rowx : Nat
  row_type : String
  row_name : String
  row_dict : List (String × String)
  ancestors : List (Option String)
deriving DecidableEq, Repr

/-- Python equality of rows: the source compares the row number and the
ODK name, consistently with its hash. -/
def pyEq (a b : XlsFormRow) : Bool :=
  a.rowx == b.rowx && a.row_name == b.row_name

/-- Membership in a collection keyed by Python equality and hash, as in
Python sets, dict keys and graph nodes. -/
def elemPy (a : XlsFormRow) (l : List XlsFormRow) : Bool :=
  l.any (fun b => pyEq a b)

/-- Counter.update on the keys of a Counter dictionary: keys already
present keep their position, new keys are appended in order. -/
def counterUpdate (acc : List (Option String)) (l : List (Option String)) : List (Option String) :=
  l.foldl (fun acc x => if x ∈ acc then acc else acc ++ [x]) acc

/-- parse_dependencies: scan every value of the row dictionary for ODK
variable references, accumulate the matched identifiers into a Counter
(keys in first-occurrence order), then add the innermost ancestor when
the ancestor stack is non-empty. -/
def XlsFormRow.parse_dependencies (r : XlsFormRow) : List (Option String) :=
  let found := (r.row_dict.map Prod.snd).foldl
    (fun acc v => counterUpdate acc ((findall v.data).map some)) []
  match r.ancestors.getLast? with
  | some a => counterUpdate found [a]
  | none => found

/-- The keys of the dependency Counter attribute computed by the row
constructor. -/
def XlsFormRow.dependency_counter (r : XlsFormRow) : List (Option String) :=
  r.parse_dependencies

/-- dependency_pair_iter: one edge pair per resolved dependency; the
flag states whether the row itself comes first in the pair. -/
def dependency_pair_iter (n : XlsFormRow) (deps : List XlsFormRow) (self_first : Bool) :
    List (XlsFormRow × XlsFormRow) :=
  deps.map (fun d => if self_first then (n, d) else (d, n))

/-- The fixed module-level edge orientation flag of the source. -/
def DIRECTED_TO_DEPENDENCY : Bool := false

/-- The body of the parsing loop of parse_ordered_nodes: walk the data
rows in order with the row counter and the ancestor stack.  A close
marker pops the stack (IndexError on an empty stack) and never yields a
node; otherwise a row with truthy type and name becomes a node, and an
open marker pushes the value of its name cell (even a falsy one). -/
def parseRows (header : List String) :
    List (List String) → Nat → List (Option String) → Except PyErr (List XlsFormRow)
  | [], _, _ => .ok []
  | row :: rest, i, ancestors =>
    let d := pyDict (header.zip (row.map pyStrip))
    let row_type := dictGet d "type"
    let row_name := dictGet d "name"
    if row_type = some "end group" ∨ row_type = some "end repeat" then
      match ancestors with
      | [] => .error .indexError
      | _ :: _ => parseRows header rest (i + 1) ancestors.dropLast
    else
      let ancNew := if row_type = some "begin group" ∨ row_type = some "begin repeat"
        then ancestors ++ [row_name] else ancestors
      match parseRows header rest (i + 1) ancNew with
      | .error e => .error e
      | .ok tail =>
        match row_type, row_name with
        | some t, some n =>
          if t = "" ∨ n = "" then .ok tail
          else .ok (XlsFormRow.mk i t n d ancestors :: tail)
        | some _, none => .ok tail
        | none, _ => .ok tail

/-- parse_ordered_nodes: the first sheet row is the header, the data
rows are enumerated from index 1 with an initially empty ancestor
stack.  An empty sheet has no header row to read. -/
def parse_ordered_nodes (sheet : List (List String)) : Except PyErr (List XlsFormRow) :=
  match sheet with
  | [] => .error .indexError
  | header :: rest => parseRows header rest 1 []

/-- The node_lookup dictionary built from the ordered nodes: name keys,
last writer wins on duplicate names.  A None key never matches. -/
def node_lookup_get (nodes : List XlsFormRow) (k : Option String) : Option XlsFormRow :=
  match k with
  | some s => (nodes.filter (fun n => n.row_name = s)).getLast?
  | none => none

/-- Subscripting node_lookup: a missing key is a KeyError carrying the
key. -/
def lookupDep (nodes : List XlsFormRow) (k : Option String) : Except PyErr XlsFormRow :=
  match node_lookup_get nodes k with
  | some n => .ok n
  | none => .error (.keyError k)

/-- The sort key used throughout the source: ascending row number. -/
def rowLe (a b : XlsFormRow) : Prop := a.rowx ≤ b.rowx

instance : DecidableRel rowLe := fun a b => Nat.decLe a.rowx b.rowx

instance : IsTotal XlsFormRow rowLe := ⟨fun a b => Nat.le_total a.rowx b.rowx⟩

instance : IsTrans XlsFormRow rowLe := ⟨fun _ _ _ h1 h2 => Nat.le_trans h1 h2⟩

/-- Evaluate a fallible function over a list left to right, propagating
the first error, as a Python comprehension or loop does. -/
def exceptMapM (f : α → Except PyErr β) : List α → Except PyErr (List β)
  | [] => .ok []
  | x :: xs =>
    match f x with
    | .error e => .error e
    | .ok y =>
      match exceptMapM f xs with
      | .error e => .error e
      | .ok ys => .ok (y :: ys)

/-- The resolution step of the constructor for one node: look every
dependency name up in node_lookup (a miss raises KeyError) and sort the
resolved rows by row number. -/
def resolveDeps (nodes : List XlsFormRow) (n : XlsFormRow) : Except PyErr (List XlsFormRow) :=
  match exceptMapM (lookupDep nodes) n.dependency_counter with
  | .error e => .error e
  | .ok unsorted => .ok (List.insertionSort rowLe unsorted)

/-- The constructed graph object: the ordered nodes and, in the same
order, the resolved dependency list stored on each node. -/
structure OdkGraph where
  ordered_nodes : List XlsFormRow
  dependencies : List (List XlsFormRow)
deriving DecidableEq, Repr

/-- The OdkGraph constructor: parse the ordered nodes, then resolve
every node's dependency names against the name lookup; any failure
aborts construction. -/
def OdkGraph.build (sheet : List (List String)) : Except PyErr OdkGraph :=
  match parse_ordered_nodes sheet with
  | .error e => .error e
  | .ok nodes =>
    match exceptMapM (resolveDeps nodes) nodes with
    | .error e => .error e
    | .ok deps => .ok ⟨nodes, deps⟩

/-- The node-to-dependency-list pairing stored by the constructor. -/
def OdkGraph.depPairs (g : OdkGraph) : List (XlsFormRow × List XlsFormRow) :=
  g.ordered_nodes.zip g.dependencies

/-- generate_network: every node is a vertex, and each node contributes
the edge pairs of dependency_pair_iter under the fixed orientation
flag (dependency first, dependent second by default). -/
def OdkGraph.edges (g : OdkGraph) : List (XlsFormRow × XlsFormRow) :=
  g.depPairs.flatMap (fun p => dependency_pair_iter p.1 p.2 DIRECTED_TO_DEPENDENCY)

/-- Edge membership in the directed graph, keyed by Python equality of
the endpoint rows (multi-edges collapse). -/
def edgeMem (g : OdkGraph) (a b : XlsFormRow) : Bool :=
  g.edges.any (fun e => pyEq e.1 a && pyEq e.2 b)

/-- successors: the directly-pointed-to neighbours of a node of the
graph; a node absent from the graph is a graph-library error. -/
def OdkGraph.successors (g : OdkGraph) (n : XlsFormRow) : Except PyErr (List XlsFormRow) :=
  if elemPy n g.ordered_nodes then
    .ok (g.ordered_nodes.filter (fun m => edgeMem g n m))
  else .error .nxError

/-- predecessors: the directly-pointing-in neighbours of a node of the
graph; a node absent from the graph is a graph-library error. -/
def OdkGraph.predecessors (g : OdkGraph) (n : XlsFormRow) : Except PyErr (List XlsFormRow) :=
  if elemPy n g.ordered_nodes then
    .ok (g.ordered_nodes.filter (fun m => edgeMem g m n))
  else .error .nxError

/-- One step of backward closure: add every graph node with an edge into
the current set. -/
def predStep (g : OdkGraph) (s : List XlsFormRow) : List XlsFormRow :=
  s ++ g.ordered_nodes.filter
    (fun m => !(elemPy m s) && s.any (fun x => edgeMem g m x))

/-- All vertices with a directed path (possibly empty) to the given
vertex: the backward closure reaches a fixpoint within one iteration per
graph node. -/
def reachTo (g : OdkGraph) (n : XlsFormRow) : List XlsFormRow :=
  (predStep g)^[g.ordered_nodes.length] [n]

/-- The graph-library ancestors query: every vertex having a path to the
source, the source itself excluded; an absent source is an error. -/
def OdkGraph.nxAncestors (g : OdkGraph) (n : XlsFormRow) : Except PyErr (List XlsFormRow) :=
  if elemPy n g.ordered_nodes then
    .ok ((reachTo g n).filter (fun m => !(pyEq m n)))
  else .error .nxError

/-- Python set construction over rows: deduplicate by Python equality,
keeping first occurrences. -/
def dedupPy (l : List XlsFormRow) : List XlsFormRow :=
  l.foldl (fun acc x => if elemPy x acc then acc else acc ++ [x]) []

/-- all_dependencies_from_nodes: union the graph-ancestors of every
input node, remove the input set from the union, and sort the remainder
by row number. -/
def OdkGraph.all_dependencies_from_nodes (g : OdkGraph) (ns : List XlsFormRow) :
    Except PyErr (List XlsFormRow) :=
  let node_set := dedupPy ns
  match exceptMapM (fun n => g.nxAncestors n) node_set with
  | .error e => .error e
  | .ok ancLists =>
    let dependencies := dedupPy ancLists.flatten
    let diff := dependencies.filter (fun x => !(elemPy x node_set))
    .ok (List.insertionSort rowLe diff)

/-- Boolean chain of edges along consecutive list entries. -/
def chainB (f : XlsFormRow → XlsFormRow → Bool) : List XlsFormRow → Bool
  | [] => true
  | [_] => true
  | a :: b :: t => f a b && chainB f (b :: t)

/-- The canonical representative condition used by the cycle
enumeration: the listed cycle starts at the first graph node (in vertex
order) that lies on it, so each simple cycle is listed exactly once. -/
def canonHead (g : OdkGraph) (c : List XlsFormRow) : Bool :=
  match g.ordered_nodes.find? (fun v => elemPy v c) with
  | some v =>
    match c.head? with
    | some h => pyEq v h
    | none => false
  | none => false

/-- A non-empty duplicate-free vertex sequence whose consecutive edges
exist and whose last vertex has an edge back to the first, in canonical
rotation. -/
def isSimpleCycleList (g : OdkGraph) (c : List XlsFormRow) : Bool :=
  !c.isEmpty && c.Nodup && chainB (fun a b => edgeMem g a b) (c ++ c.take 1) && canonHead g c

/-- simple_cycles: enumerate every simple directed cycle of the graph,
each once, as its canonical vertex sequence. -/
def OdkGraph.simple_cycles (g : OdkGraph) : List (List XlsFormRow) :=
  (g.ordered_nodes.sublists.flatMap List.permutations').filter (fun c => isSimpleCycleList g c)

/-- is_directed_acyclic_graph: no vertex lies on a directed cycle, that
is, no vertex has an edge to a vertex from which it is reachable. -/
def OdkGraph.is_directed_acyclic_graph (g : OdkGraph) : Bool :=
  g.ordered_nodes.all (fun v =>
    !(g.ordered_nodes.any (fun w => edgeMem g v w && elemPy w (reachTo g v))))

/-- forward_dependencies: every pair of a node and a resolved dependency
defined on a later sheet row. -/
def OdkGraph.forward_dependencies (g : OdkGraph) : List (XlsFormRow × XlsFormRow) :=
  g.depPairs.flatMap (fun p =>
    (p.2.filter (fun d => p.1.rowx < d.rowx)).map (fun d => (p.1, d)))

/-- A Python value appearing as a slice component: an integer or a
string. -/
inductive PyVal where
  | vint : Int → PyVal
  | vstr : String → PyVal
deriving DecidableEq, Repr

/-- A Python slice: each of start, stop and step is a value or None. -/
structure PySlice where
  start : Option PyVal
  stop : Option PyVal
  step : Option PyVal
deriving DecidableEq, Repr

/-- A key given to the combined indexing operation. -/
inductive PyKey where
  | kint : Int → PyKey
  | kstr : String → PyKey
  | kslice : PySlice → PyKey
deriving DecidableEq, Repr

/-- The result of the combined indexing operation: one row, or a list of
rows for a range. -/
inductive PyRes where
  | node : XlsFormRow → PyRes
  | nodes : List XlsFormRow → PyRes
deriving DecidableEq, Repr

/-- Python truthiness of a slice component value: zero and the empty
string are falsy. -/
def pyTruthyVal : PyVal → Bool
  | .vint i => i != 0
  | .vstr s => s != ""

/-- Integer check for a slice component, as isinstance int. -/
def isIntVal : PyVal → Bool
  | .vint _ => true
  | .vstr _ => false

/-- String check for a slice component, as isinstance str. -/
def isStrVal : PyVal → Bool
  | .vint _ => false
  | .vstr _ => true

/-- Python list indexing with an integer: negative indices count from
the end; out of range raises IndexError. -/
def pyIndexGet (l : List XlsFormRow) (i : Int) : Except PyErr XlsFormRow :=
  let j := if i < 0 then i + l.length else i
  if h : 0 ≤ j ∧ j.toNat < l.length then .ok (l.get ⟨j.toNat, h.2⟩)
  else .error .indexError

/-- Python list.index on rows: the first position whose element equals
the argument under Python equality; a miss raises ValueError. -/
def pyIndexOf (l : List XlsFormRow) (x : XlsFormRow) : Except PyErr Nat :=
  match l.findIdx? (fun y => pyEq y x) with
  | some k => .ok k
  | none => .error .valueError

/-- Conversion of one bound inside the all-string branch of _get_slicer:
node_lookup.get only hits for a string key naming a node; a hit is
replaced by the position of that node in the ordered sequence, any other
value (a miss, None, or a non-string) stays None. -/
def sliceBound (g : OdkGraph) (b : Option PyVal) : Except PyErr (Option Int) :=
  match b with
  | some (.vstr s) =>
    match node_lookup_get g.ordered_nodes (some s) with
    | some r =>
      match pyIndexOf g.ordered_nodes r with
      | .ok k => .ok (some (Int.ofNat k))
      | .error e => .error e
    | none => .ok none
  | _ => .ok none

/-- The truthy slice components, in order: filter(None, (start, stop,
step)) drops None and every falsy value. -/
def truthyVals (key : PySlice) : List PyVal :=
  ([key.start, key.stop, key.step].filterMap id).filter pyTruthyVal

/-- _get_slicer: filter(None, attributes) is a single-use iterator, and
the first isinstance check consumes it up to and including the first
non-integer truthy component, so the second isinstance check only sees
the truthy components after that one.  An all-integer (up to falsy
components) slice passes through unchanged; when every truthy component
after the first string is again a string, the slice is treated as a
name range: bounds are converted to positions (missing names become
open bounds) and the step is dropped; only otherwise — a truthy string
strictly before a truthy integer — is a TypeError raised. -/
def OdkGraph.get_slicer (g : OdkGraph) (key : PySlice) : Except PyErr PySlice :=
  let non_null := truthyVals key
  if non_null.all isIntVal then .ok key
  else if ((non_null.dropWhile isIntVal).tail).all isStrVal then
    match sliceBound g key.start with
    | .error e => .error e
    | .ok startN =>
      match sliceBound g key.stop with
      | .error e => .error e
      | .ok stopN =>
        .ok ⟨startN.map PyVal.vint, stopN.map PyVal.vint, none⟩
  else .error .typeError

/-- A slice component must be an integer or None for list slicing; a
string is a TypeError. -/
def pySliceVal : Option PyVal → Except PyErr (Option Int)
  | none => .ok none
  | some (.vint i) => .ok (some i)
  | some (.vstr _) => .error .typeError

/-- Python list slicing: unpack and clamp the bounds exactly as the
interpreter does (zero step is a ValueError), then take every step-th
element of the selected range. -/
def pyListSlice (l : List XlsFormRow) (sl : PySlice) : Except PyErr (List XlsFormRow) :=
  match pySliceVal sl.step with
  | .error e => .error e
  | .ok stepO =>
    let step := stepO.getD 1
    if step = 0 then .error .valueError
    else
      match pySliceVal sl.start with
      | .error e => .error e
      | .ok startO =>
        match pySliceVal sl.stop with
        | .error e => .error e
        | .ok stopO =>
          let len : Int := l.length
          let lower : Int := if step < 0 then -1 else 0
          let upper : Int := if step < 0 then len - 1 else len
          let start := match startO with
            | none => if step < 0 then upper else lower
            | some s => if s < 0 then max (s + len) lower else min s upper
          let stop := match stopO with
            | none => if step < 0 then lower else upper
            | some s => if s < 0 then max (s + len) lower else min s upper
          let count : Int :=
            if step < 0 then (if stop < start then (start - stop - 1) / (-step) + 1 else 0)
            else (if start < stop then (stop - start - 1) / step + 1 else 0)
          .ok ((List.range count.toNat).filterMap
            (fun k => l.get? (start + step * k).toNat))

/-- The combined indexing operation: an integer is an array index, a
string is an ODK name looked up directly (KeyError on a miss), a slice
is cleaned by _get_slicer and applied to the ordered node list. -/
def OdkGraph.getItem (g : OdkGraph) (key : PyKey) : Except PyErr PyRes :=
  match key with
  | .kint i =>
    match pyIndexGet g.ordered_nodes i with
    | .ok r => .ok (.node r)
    | .error e => .error e
  | .kstr s =>
    match node_lookup_get g.ordered_nodes (some s) with
    | some r => .ok (.node r)
    | none => .error (.keyError (some s))
  | .kslice sl =>
    match g.get_slicer sl with
    | .error e => .error e
    | .ok slicer =>
      match pyListSlice g.ordered_nodes slicer with
      | .error e => .error e
      | .ok rs => .ok (.nodes rs)

instance {ε α : Type} [DecidableEq ε] [DecidableEq α] : DecidableEq (Except ε α) := fun x y =>
  match x, y with
  | .error a, .error b =>
    if h : a = b then .isTrue (by rw [h]) else .isFalse (fun hc => h (by cases hc; rfl))
  | .ok a, .ok b =>
    if h : a = b then .isTrue (by rw [h]) else .isFalse (fun hc => h (by cases hc; rfl))
  | .error _, .ok _ => .isFalse (fun hc => Except.noConfusion hc)
  | .ok _, .error _ => .isFalse (fun hc => Except.noConfusion hc)

theorem pyEq_iff {a b : XlsFormRow} :
    pyEq a b = true ↔ a.rowx = b.rowx ∧ a.row_name = b.row_name := by
  simp [pyEq]

theorem pyEq_refl (a : XlsFormRow) : pyEq a a = true := by
  simp [pyEq]

theorem pyEq_symm {a b : XlsFormRow} (h : pyEq a b = true) : pyEq b a = true := by
  rw [pyEq_iff] at h ⊢
  exact ⟨h.1.symm, h.2.symm⟩

theorem pyEq_trans {a b c : XlsFormRow} (h1 : pyEq a b = true) (h2 : pyEq b c = true) :
    pyEq a c = true := by
  rw [pyEq_iff] at h1 h2 ⊢
  exact ⟨h1.1.trans h2.1, h1.2.trans h2.2⟩

theorem elemPy_iff {a : XlsFormRow} {l : List XlsFormRow} :
    elemPy a l = true ↔ ∃ b ∈ l, pyEq a b = true := by
  simp [elemPy]

theorem elemPy_of_mem {a : XlsFormRow} {l : List XlsFormRow} (h : a ∈ l) :
    elemPy a l = true :=
  elemPy_iff.2 ⟨a, h, pyEq_refl a⟩

theorem elemPy_append {a : XlsFormRow} {l1 l2 : List XlsFormRow} :
    elemPy a (l1 ++ l2) = (elemPy a l1 || elemPy a l2) := by
  simp [elemPy, List.any_append]

theorem elemPy_congr {a b : XlsFormRow} {l : List XlsFormRow} (h : pyEq a b = true) :
    elemPy a l = elemPy b l := by
  rcases hb : elemPy b l with _ | _
  · rcases ha : elemPy a l with _ | _
    · rfl
    · obtain ⟨c, hc, hac⟩ := elemPy_iff.1 ha
      have : elemPy b l = true := elemPy_iff.2 ⟨c, hc, pyEq_trans (pyEq_symm h) hac⟩
      rw [this] at hb
      exact hb
  · obtain ⟨c, hc, hbc⟩ := elemPy_iff.1 hb
    exact elemPy_iff.2 ⟨c, hc, pyEq_trans h hbc⟩

theorem mem_counterUpdate {x : Option String} {acc l : List (Option String)} :
    x ∈ counterUpdate acc l ↔ x ∈ acc ∨ x ∈ l := by
  induction l generalizing acc with
  | nil => simp [counterUpdate]
  | cons y ys ih =>
    show x ∈ counterUpdate (if y ∈ acc then acc else acc ++ [y]) ys ↔ _
    by_cases hy : y ∈ acc
    · rw [if_pos hy, ih]
      constructor
      · rintro (h | h)
        · exact Or.inl h
        · exact Or.inr (List.mem_cons_of_mem y h)
      · rintro (h | h)
        · exact Or.inl h
        · rcases List.mem_cons.1 h with h | h
          · exact Or.inl (h ▸ hy)
          · exact Or.inr h
    · rw [if_neg hy, ih]
      simp only [List.mem_append, List.mem_singleton, List.mem_cons]
      tauto

theorem nodup_counterUpdate {acc l : List (Option String)} (h : acc.Nodup) :
    (counterUpdate acc l).Nodup := by
  induction l generalizing acc with
  | nil => exact h
  | cons y ys ih =>
    show (counterUpdate (if y ∈ acc then acc else acc ++ [y]) ys).Nodup
    by_cases hy : y ∈ acc
    · rw [if_pos hy]
      exact ih h
    · rw [if_neg hy]
      refine ih ?_
      simp [List.nodup_append, h, hy]

theorem exceptMapM_ok_mem {f : α → Except PyErr β} {l : List α} {ys : List β}
    (h : exceptMapM f l = .ok ys) {a : α} (ha : a ∈ l) : ∃ y ∈ ys, f a = .ok y := by
  induction l generalizing ys with
  | nil => cases ha
  | cons x xs ih =>
    rw [exceptMapM] at h
    cases hf : f x with
    | error e => rw [hf] at h; cases h
    | ok y =>
      rw [hf] at h
      cases hrec : exceptMapM f xs with
      | error e => rw [hrec] at h; cases h
      | ok ys' =>
        rw [hrec] at h
        cases h
        rcases List.mem_cons.1 ha with rfl | ha'
        · exact ⟨y, List.mem_cons_self _ _, hf⟩
        · obtain ⟨y', hy', hfy'⟩ := ih hrec ha'
          exact ⟨y', List.mem_cons_of_mem _ hy', hfy'⟩

theorem exceptMapM_mem_of_ok {f : α → Except PyErr β} {l : List α} {ys : List β}
    (h : exceptMapM f l = .ok ys) {y : β} (hy : y ∈ ys) : ∃ a ∈ l, f a = .ok y := by
  induction l generalizing ys with
  | nil =>
    rw [exceptMapM] at h
    cases h
    cases hy
  | cons x xs ih =>
    rw [exceptMapM] at h
    cases hf : f x with
    | error e => rw [hf] at h; cases h
    | ok y' =>
      rw [hf] at h
      cases hrec : exceptMapM f xs with
      | error e => rw [hrec] at h; cases h
      | ok ys' =>
        rw [hrec] at h
        cases h
        rcases List.mem_cons.1 hy with rfl | hy'
        · exact ⟨x, List.mem_cons_self _ _, hf⟩
        · obtain ⟨a, ha, hfa⟩ := ih hrec hy'
          exact ⟨a, List.mem_cons_of_mem _ ha, hfa⟩

theorem exceptMapM_error_of_mem {f : α → Except PyErr β} {l : List α} {a : α} {e : PyErr}
    (ha : a ∈ l) (hf : f a = .error e) :
    ∃ e', (∃ a' ∈ l, f a' = .error e') ∧ exceptMapM f l = .error e' := by
  induction l with
  | nil => cases ha
  | cons x xs ih =>
    cases hfx : f x with
    | error e0 =>
      refine ⟨e0, ⟨x, List.mem_cons_self _ _, hfx⟩, ?_⟩
      rw [exceptMapM, hfx]
    | ok y =>
      rcases List.mem_cons.1 ha with rfl | ha'
      · rw [hfx] at hf
        cases hf
      · obtain ⟨e', ⟨a', ha'', hfa'⟩, hrec⟩ := ih ha'
        refine ⟨e', ⟨a', List.mem_cons_of_mem _ ha'', hfa'⟩, ?_⟩
        rw [exceptMapM, hfx, hrec]

theorem exceptMapM_ok_zip {f : α → Except PyErr β} {l : List α} {ys : List β}
    (h : exceptMapM f l = .ok ys) :
    ys.length = l.length ∧ ∀ p ∈ l.zip ys, f p.1 = .ok p.2 := by
  induction l generalizing ys with
  | nil =>
    rw [exceptMapM] at h
    cases h
    exact ⟨rfl, by simp⟩
  | cons x xs ih =>
    rw [exceptMapM] at h
    cases hf : f x with
    | error e => rw [hf] at h; cases h
    | ok y =>
      rw [hf] at h
      cases hrec : exceptMapM f xs with
      | error e => rw [hrec] at h; cases h
      | ok ys' =>
        rw [hrec] at h
        cases h
        obtain ⟨hlen, hall⟩ := ih hrec
        refine ⟨by simp [hlen], ?_⟩
        intro p hp
        rcases List.mem_cons.1 hp with rfl | hp'
        · exact hf
        · exact hall p hp'

/-- Specification of the parsing loop: an ok outcome yields nodes with
strictly increasing row numbers, each at least the starting counter, and
each node records the dictionary of the data row at its own offset. -/
theorem parseRows_ok_spec {header : List String} {rows : List (List String)} {i : Nat}
    {anc : List (Option String)} {nodes : List XlsFormRow}
    (h : parseRows header rows i anc = .ok nodes) :
    List.Pairwise (fun a b : XlsFormRow => a.rowx < b.rowx) nodes ∧
    ∀ n ∈ nodes, i ≤ n.rowx ∧ ∃ j r, rows[j]? = some r ∧ n.rowx = i + j ∧
      n.row_dict = pyDict (header.zip (r.map pyStrip)) := by
  induction rows generalizing i anc nodes with
  | nil =>
    rw [parseRows] at h
    cases h
    exact ⟨List.Pairwise.nil, by simp⟩
  | cons row rest ih =>
    have shift : ∀ {tail : List XlsFormRow},
        (∀ n ∈ tail, i + 1 ≤ n.rowx ∧ ∃ j r, rest[j]? = some r ∧ n.rowx = (i + 1) + j ∧
          n.row_dict = pyDict (header.zip (r.map pyStrip))) →
        ∀ n ∈ tail, i ≤ n.rowx ∧ ∃ j r, (row :: rest)[j]? = some r ∧ n.rowx = i + j ∧
          n.row_dict = pyDict (header.zip (r.map pyStrip)) := by
      intro tail hmem n hn
      obtain ⟨hle, j, r, hget, hrowx, hdict⟩ := hmem n hn
      exact ⟨by omega, j + 1, r, by simpa using hget, by omega, hdict⟩
    simp only [parseRows] at h
    split at h
    · split at h
      · cases h
      · obtain ⟨hp, hmem⟩ := ih h
        exact ⟨hp, shift hmem⟩
    · split at h
      · cases h
      · rename_i tail htail
        obtain ⟨hp, hmem⟩ := ih htail
        split at h
        · split at h
          · cases h
            exact ⟨hp, shift hmem⟩
          · cases h
            constructor
            · refine List.Pairwise.cons ?_ hp
              intro b hb
              have := (hmem b hb).1
              simp only
              omega
            · intro n hn
              rcases List.mem_cons.1 hn with rfl | hn'
              · exact ⟨Nat.le_refl _, 0, row, by simp, by simp, rfl⟩
              · exact shift hmem n hn'
        · cases h
          exact ⟨hp, shift hmem⟩
        · cases h
          exact ⟨hp, shift hmem⟩

/-- C1 counterexample: in the sheet with header and a single data row,
that data row's 0-based offset among non-header rows is 0, yet the
parsed node's position is 1 — the source numbers rows with the header
included, so the claimed equality fails. -/
theorem c1_counterexample :
    (parse_ordered_nodes [["type", "name"], ["text", "a"]]).map
      (fun ns => ns.map XlsFormRow.rowx) = .ok [1] ∧ (1 : Nat) ≠ 0 :=
  ⟨by decide, by decide⟩

/-- C1 (amended): for every row that becomes a node, the node's position
equals 1 plus that row's 0-based offset among the non-header rows (that
is, the row's index in the sheet counting the header row at index 0),
the node records that row's field dictionary, and positions are strictly
increasing across the node sequence, hence unique. -/
theorem c1_amended {sheet : List (List String)} {nodes : List XlsFormRow}
    (h : parse_ordered_nodes sheet = .ok nodes) :
    List.Pairwise (fun a b : XlsFormRow => a.rowx < b.rowx) nodes ∧
    (nodes.map XlsFormRow.rowx).Nodup ∧
    ∀ n ∈ nodes, ∃ j r, (sheet.drop 1)[j]? = some r ∧ n.rowx = 1 + j ∧
      n.row_dict = pyDict ((sheet.headD []).zip (r.map pyStrip)) := by
  match sheet with
  | [] => cases h
  | header :: rest =>
    rw [parse_ordered_nodes] at h
    obtain ⟨hp, hmem⟩ := parseRows_ok_spec h
    refine ⟨hp, ?_, ?_⟩
    · exact List.pairwise_map.2 (hp.imp fun hlt => Nat.ne_of_lt hlt)
    · intro n hn
      obtain ⟨_, j, r, hget, hrowx, hdict⟩ := hmem n hn
      exact ⟨j, r, hget, hrowx, hdict⟩

/-- Witness for the amended C1: the two-data-row sheet parses to nodes
at positions 1 and 2, with the stated correspondence to sheet rows. -/
theorem c1_amended_witness :
    List.Pairwise (fun a b : XlsFormRow => a.rowx < b.rowx)
      [⟨1, "text", "a", [("type", "text"), ("name", "a")], []⟩,
       ⟨2, "text", "b", [("type", "text"), ("name", "b")], []⟩] ∧
    (([⟨1, "text", "a", [("type", "text"), ("name", "a")], []⟩,
       ⟨2, "text", "b", [("type", "text"), ("name", "b")], []⟩] :
        List XlsFormRow).map XlsFormRow.rowx).Nodup ∧
    ∀ n ∈ ([⟨1, "text", "a", [("type", "text"), ("name", "a")], []⟩,
            ⟨2, "text", "b", [("type", "text"), ("name", "b")], []⟩] : List XlsFormRow),
      ∃ j r, (([["type", "name"], ["text", "a"], ["text", "b"]] :
          List (List String)).drop 1)[j]? = some r ∧ n.rowx = 1 + j ∧
        n.row_dict = pyDict ((([["type", "name"], ["text", "a"], ["text", "b"]] :
          List (List String)).headD []).zip (r.map pyStrip)) :=
  c1_amended (by decide)

/-- C5 counterexample: a begin-group row whose name cell is empty is
skipped as a node, yet it still pushes onto the ancestor stack — the
following node records the pushed empty name as its enclosing ancestor,
so nesting tracking is affected, contradicting the claim. -/
theorem c5_counterexample :
    parse_ordered_nodes [["type", "name"], ["begin group", ""], ["text", "a"]] =
      .ok [⟨2, "text", "a", [("type", "text"), ("name", "a")], [some ""]⟩] ∧
    ([some ""] : List (Option String)) ≠ [] :=
  ⟨by decide, by decide⟩

/-- C5 (amended): open and close markers affect nesting tracking
regardless of their name cell.  A close-marker row always pops the
ancestor stack (a fatal error on an empty stack) and yields no node; an
open-marker row with a falsy name yields no node but still pushes the
value of its name cell onto the stack. -/
theorem c5_amended (header : List String) (row : List String) (rest : List (List String))
    (i : Nat) (anc : List (Option String)) :
    ((dictGet (pyDict (header.zip (row.map pyStrip))) "type" = some "end group" ∨
      dictGet (pyDict (header.zip (row.map pyStrip))) "type" = some "end repeat") →
      (anc = [] → parseRows header (row :: rest) i anc = .error .indexError) ∧
      (anc ≠ [] → parseRows header (row :: rest) i anc =
        parseRows header rest (i + 1) anc.dropLast)) ∧
    ((dictGet (pyDict (header.zip (row.map pyStrip))) "type" = some "begin group" ∨
      dictGet (pyDict (header.zip (row.map pyStrip))) "type" = some "begin repeat") →
      pyTruthy (dictGet (pyDict (header.zip (row.map pyStrip))) "name") = false →
      parseRows header (row :: rest) i anc =
        parseRows header rest (i + 1)
          (anc ++ [dictGet (pyDict (header.zip (row.map pyStrip))) "name"])) := by
  constructor
  · intro htype
    constructor
    · intro hanc
      subst hanc
      simp only [parseRows]
      rw [if_pos htype]
    · intro hanc
      match anc with
      | [] => exact absurd rfl hanc
      | a :: anc' =>
        simp only [parseRows]
        rw [if_pos htype]
  · intro htype hname
    have hne : ¬ (dictGet (pyDict (header.zip (row.map pyStrip))) "type" = some "end group" ∨
        dictGet (pyDict (header.zip (row.map pyStrip))) "type" = some "end repeat") := by
      rcases htype with h | h <;> rw [h] <;> simp
    simp only [parseRows]
    rw [if_neg hne, if_pos htype]
    cases hrec : parseRows header rest (i + 1)
        (anc ++ [dictGet (pyDict (header.zip (row.map pyStrip))) "name"]) with
    | error e => rfl
    | ok tail =>
      cases hn : dictGet (pyDict (header.zip (row.map pyStrip))) "name" with
      | none =>
        cases ht : dictGet (pyDict (header.zip (row.map pyStrip))) "type" with
        | none => rfl
        | some t => rfl
      | some s =>
        have hs : s = "" := by
          rw [hn] at hname
          simpa [pyTruthy] using hname
        subst hs
        cases ht : dictGet (pyDict (header.zip (row.map pyStrip))) "type" with
        | none => rfl
        | some t => simp

/-- Witness for the amended C5: a nameless end-group row pops the stack
(emptying it), and a begin-group row with empty name pushes that empty
name. -/
theorem c5_amended_witness :
    parseRows ["type", "name"] [["end group", ""]] 2 [some "g"] =
      parseRows ["type", "name"] [] 3 [] ∧
    parseRows ["type", "name"] [["begin group", ""], ["text", "a"]] 1 [] =
      parseRows ["type", "name"] [["text", "a"]] 2 [some ""] :=
  ⟨((c5_amended ["type", "name"] ["end group", ""] [] 2 [some "g"]).1
      (by decide)).2 (by decide),
   (c5_amended ["type", "name"] ["begin group", ""] [["text", "a"]] 1 []).2
      (by decide) (by decide)⟩

theorem mem_foldl_counterUpdate {vs : List String} {acc : List (Option String)}
    {x : Option String} :
    x ∈ vs.foldl (fun acc v => counterUpdate acc ((findall v.data).map some)) acc ↔
      x ∈ acc ∨ ∃ v ∈ vs, ∃ s ∈ findall v.data, x = some s := by
  induction vs generalizing acc with
  | nil => simp
  | cons v vs ih =>
    rw [List.foldl_cons, ih, mem_counterUpdate]
    simp only [List.mem_cons, List.mem_map]
    constructor
    · rintro ((h | ⟨s, hs, rfl⟩) | ⟨v', hv', s, hs, rfl⟩)
      · exact Or.inl h
      · exact Or.inr ⟨v, Or.inl rfl, s, hs, rfl⟩
      · exact Or.inr ⟨v', Or.inr hv', s, hs, rfl⟩
    · rintro (h | ⟨v', hv' | hv', s, hs, rfl⟩)
      · exact Or.inl (Or.inl h)
      · exact Or.inl (Or.inr ⟨s, hv' ▸ hs, rfl⟩)
      · exact Or.inr ⟨v', hv', s, hs, rfl⟩

theorem nodup_foldl_counterUpdate {vs : List String} {acc : List (Option String)}
    (h : acc.Nodup) :
    (vs.foldl (fun acc v => counterUpdate acc ((findall v.data).map some)) acc).Nodup := by
  induction vs generalizing acc with
  | nil => exact h
  | cons v vs ih => exact ih (nodup_counterUpdate h)

/-- Lexicographic boolean order on character lists. -/
def charListLe : List Char → List Char → Bool
  | [], _ => true
  | _ :: _, [] => false
  | a :: as, b :: bs => if a = b then charListLe as bs else decide (a < b)

/-- Lexicographic order on optional dependency names (Python None
sorts as the empty string would). -/
def optNameLe (x y : Option String) : Bool :=
  charListLe (x.getD "").data (y.getD "").data

/-- The ordering claimed by the specification for dependency_names:
the deduplicated matches sorted lexicographically ascending.  This is
the claim-side definition used to compare against the code's order. -/
def specLexSortedNames (l : List (Option String)) : List (Option String) :=
  List.insertionSort (fun a b => optNameLe a b = true) l

/-- C4 counterexample: a row whose sole field references b before a
stores dependency names in first-occurrence order, not sorted
lexicographically ascending as claimed. -/
theorem c4_counterexample :
    (parse_ordered_nodes [["type", "name", "calculation"],
        ["calculate", "x", "${b}${a}"]]).map
      (fun ns => ns.map XlsFormRow.dependency_counter) = .ok [[some "b", some "a"]] ∧
    specLexSortedNames [some "b", some "a"] = [some "a", some "b"] ∧
    ([some "b", some "a"] : List (Option String)) ≠ [some "a", some "b"] :=
  ⟨by decide, by decide, by decide⟩

/-- First-occurrence deduplication: keep the first appearance of each
name in scan order and drop every later repeat.  This is the key order
of a Python Counter built by successive update calls. -/
def dedupKeepFirst : List (Option String) → List (Option String)
  | [] => []
  | x :: xs => x :: dedupKeepFirst (xs.filter (fun y => y ≠ x))
termination_by l => l.length
decreasing_by
  simp only [List.length_cons]
  exact Nat.lt_succ_of_le (List.length_filter_le _ _)

theorem dedupKeepFirst_cons (x : Option String) (xs : List (Option String)) :
    dedupKeepFirst (x :: xs) = x :: dedupKeepFirst (xs.filter (fun y => y ≠ x)) := by
  rw [dedupKeepFirst]

theorem counterUpdate_append (acc l1 l2 : List (Option String)) :
    counterUpdate acc (l1 ++ l2) = counterUpdate (counterUpdate acc l1) l2 := by
  unfold counterUpdate
  rw [List.foldl_append]

theorem foldl_counterUpdate_flatMap :
    ∀ (vs : List String) (acc : List (Option String)),
      vs.foldl (fun acc v => counterUpdate acc ((findall v.data).map some)) acc =
        counterUpdate acc (vs.flatMap (fun v => (findall v.data).map some)) := by
  intro vs
  induction vs with
  | nil => intro acc; rfl
  | cons v vs ih =>
    intro acc
    rw [List.foldl_cons, List.flatMap_cons, counterUpdate_append]
    exact ih _

theorem counterUpdate_eq_append_dedupKeepFirst :
    ∀ (l acc : List (Option String)),
      counterUpdate acc l = acc ++ dedupKeepFirst (l.filter (fun y => y ∉ acc)) := by
  intro l
  induction l with
  | nil =>
    intro acc
    simp [counterUpdate, dedupKeepFirst]
  | cons x xs ih =>
    intro acc
    show counterUpdate (if x ∈ acc then acc else acc ++ [x]) xs =
      acc ++ dedupKeepFirst ((x :: xs).filter (fun y => y ∉ acc))
    by_cases hx : x ∈ acc
    · have hf : (x :: xs).filter (fun y => y ∉ acc) = xs.filter (fun y => y ∉ acc) := by
        simp [List.filter_cons, hx]
      rw [if_pos hx, hf, ih]
    · have hf : (x :: xs).filter (fun y => y ∉ acc) = x :: xs.filter (fun y => y ∉ acc) := by
        simp [List.filter_cons, hx]
      have hff : xs.filter (fun y => y ∉ acc ++ [x]) =
          (xs.filter (fun y => y ∉ acc)).filter (fun y => y ≠ x) := by
        rw [List.filter_filter]
        refine List.filter_congr ?_
        intro y _
        by_cases h1 : y ∈ acc <;> by_cases h2 : y = x <;>
          simp [h1, h2, List.mem_append]
      rw [if_neg hx, ih, hff, hf, dedupKeepFirst_cons]
      simp

theorem counterUpdate_nil_eq_dedupKeepFirst (l : List (Option String)) :
    counterUpdate [] l = dedupKeepFirst l := by
  have hf : l.filter (fun y => y ∉ ([] : List (Option String))) = l :=
    List.filter_eq_self.2 (fun a _ => by simp)
  rw [counterUpdate_eq_append_dedupKeepFirst, hf]
  rfl

/-- C4 (amended): dependency_names is duplicate-free and contains
exactly the identifiers matched by the variable-reference pattern across
all field values, plus the innermost ancestor when the ancestor stack is
non-empty; moreover it equals the first-occurrence deduplication of the
matches in scan order followed by the innermost ancestor, not the
lexicographically sorted order. -/
theorem c4_amended (r : XlsFormRow) :
    r.dependency_counter.Nodup ∧
    (∀ x, x ∈ r.dependency_counter ↔
      ((∃ v ∈ r.row_dict.map Prod.snd, ∃ s ∈ findall v.data, x = some s) ∨
        r.ancestors.getLast? = some x)) ∧
    r.dependency_counter =
      dedupKeepFirst ((r.row_dict.map Prod.snd).flatMap
        (fun v => (findall v.data).map some) ++ r.ancestors.getLast?.toList) := by
  have hmain : r.dependency_counter.Nodup ∧
      ∀ x, x ∈ r.dependency_counter ↔
        ((∃ v ∈ r.row_dict.map Prod.snd, ∃ s ∈ findall v.data, x = some s) ∨
          r.ancestors.getLast? = some x) := by
    unfold XlsFormRow.dependency_counter XlsFormRow.parse_dependencies
    cases hl : r.ancestors.getLast? with
    | none =>
      simp only
      constructor
      · exact nodup_foldl_counterUpdate List.nodup_nil
      · intro x
        rw [mem_foldl_counterUpdate]
        simp
    | some a =>
      simp only
      constructor
      · exact nodup_counterUpdate (nodup_foldl_counterUpdate List.nodup_nil)
      · intro x
        rw [mem_counterUpdate, mem_foldl_counterUpdate]
        simp only [List.not_mem_nil, false_or, List.mem_singleton]
        constructor
        · rintro (h | rfl)
          · exact Or.inl h
          · exact Or.inr rfl
        · rintro (h | h)
          · exact Or.inl h
          · exact Or.inr (Option.some.inj h).symm
  refine ⟨hmain.1, hmain.2, ?_⟩
  unfold XlsFormRow.dependency_counter XlsFormRow.parse_dependencies
  cases hl : r.ancestors.getLast? with
  | none =>
    simp only [Option.toList]
    rw [foldl_counterUpdate_flatMap, List.append_nil]
    exact counterUpdate_nil_eq_dedupKeepFirst _
  | some a =>
    simp only [Option.toList]
    rw [foldl_counterUpdate_flatMap, ← counterUpdate_append]
    exact counterUpdate_nil_eq_dedupKeepFirst _

theorem node_lookup_get_some {nodes : List XlsFormRow} {s : String} {r : XlsFormRow}
    (h : node_lookup_get nodes (some s) = some r) : r ∈ nodes ∧ r.row_name = s := by
  unfold node_lookup_get at h
  have hmem := List.mem_of_getLast?_eq_some h
  have := List.mem_filter.1 hmem
  exact ⟨this.1, by simpa using this.2⟩

theorem pyIndexOf_ok_of_mem {l : List XlsFormRow} {x : XlsFormRow} (h : x ∈ l) :
    ∃ k, pyIndexOf l x = .ok k := by
  have hsome : (l.findIdx? (fun y => pyEq y x)).isSome := by
    rw [List.findIdx?_isSome]
    exact List.any_eq_true.2 ⟨x, h, pyEq_refl x⟩
  cases hf : l.findIdx? (fun y => pyEq y x) with
  | none => rw [hf] at hsome; cases hsome
  | some k =>
    refine ⟨k, ?_⟩
    unfold pyIndexOf
    rw [hf]

theorem sliceBound_ok (g : OdkGraph) (b : Option PyVal) :
    ∃ o, sliceBound g b = .ok o := by
  match b with
  | none => exact ⟨none, rfl⟩
  | some (.vint i) => exact ⟨none, rfl⟩
  | some (.vstr s) =>
    simp only [sliceBound]
    cases hl : node_lookup_get g.ordered_nodes (some s) with
    | none => exact ⟨none, rfl⟩
    | some r =>
      obtain ⟨k, hk⟩ := pyIndexOf_ok_of_mem (node_lookup_get_some hl).1
      refine ⟨some (Int.ofNat k), ?_⟩
      show (match pyIndexOf g.ordered_nodes r with
        | Except.ok k => Except.ok (some (Int.ofNat k))
        | Except.error e => Except.error e) = Except.ok (some (Int.ofNat k))
      rw [hk]

theorem isStrVal_eq_not_isIntVal (v : PyVal) : isStrVal v = !(isIntVal v) := by
  cases v <;> rfl

/-- A sheet of two plain question rows with no references. -/
def rowA : XlsFormRow := ⟨1, "text", "a", [("type", "text"), ("name", "a")], []⟩

/-- Second node of the two-row fixture sheet. -/
def rowB : XlsFormRow := ⟨2, "text", "b", [("type", "text"), ("name", "b")], []⟩

/-- The graph constructed from the two-row fixture sheet. -/
def gAB : OdkGraph := ⟨[rowA, rowB], [[], []]⟩

theorem build_gAB : OdkGraph.build [["type", "name"], ["text", "a"], ["text", "b"]] = .ok gAB := by
  decide

/-- C6 counterexample: on a constructed graph, the range with truthy
integer start 1 and name stop b mixes an integer and a name, yet no
type error is raised: the first isinstance check consumes the filter
iterator through the string, the second check sees nothing left, and
the range is handled as a name range — start 1 misses the name lookup,
becomes an open bound, and the ordered sub-sequence up to b is
returned. -/
theorem c6_counterexample :
    OdkGraph.build [["type", "name"], ["text", "a"], ["text", "b"]] = .ok gAB ∧
    gAB.getItem (.kslice ⟨some (.vint 1), some (.vstr "b"), none⟩) = .ok (.nodes [rowA]) :=
  ⟨by decide, by decide⟩

/-- The two boolean checks performed on the consumed filter iterator
fail together exactly when some string component precedes some integer
component. -/
theorem split_str_int_iff (T : List PyVal) :
    (T.all isIntVal = false ∧ ((T.dropWhile isIntVal).tail).all isStrVal = false) ↔
      ∃ l1 l2, T = l1 ++ l2 ∧ (∃ s, PyVal.vstr s ∈ l1) ∧ (∃ n, PyVal.vint n ∈ l2) := by
  induction T with
  | nil =>
    constructor
    · rintro ⟨h, _⟩
      rw [List.all_nil] at h
      cases h
    · rintro ⟨l1, l2, heq, ⟨s, hs⟩, _⟩
      have h1 : l1 = [] := (List.append_eq_nil.1 heq.symm).1
      rw [h1] at hs
      cases hs
  | cons v T ih =>
    cases hv : isIntVal v with
    | true =>
      have hstep1 : (v :: T).all isIntVal = T.all isIntVal := by
        rw [List.all_cons, hv, Bool.true_and]
      have hstep2 : (v :: T).dropWhile isIntVal = T.dropWhile isIntVal := by
        rw [List.dropWhile_cons, hv]
        simp
      rw [hstep1, hstep2, ih]
      constructor
      · rintro ⟨l1, l2, heq, ⟨s, hs⟩, hn⟩
        exact ⟨v :: l1, l2, by rw [List.cons_append, heq], ⟨s, List.mem_cons_of_mem v hs⟩, hn⟩
      · rintro ⟨l1, l2, heq, ⟨s, hs⟩, hn⟩
        cases l1 with
        | nil => cases hs
        | cons w l1 =>
          rw [List.cons_append] at heq
          injection heq with hw hT
          rcases List.mem_cons.1 hs with hsw | hs2
          · exfalso
            rw [← hw] at hsw
            rw [← hsw] at hv
            simp [isIntVal] at hv
          · exact ⟨l1, l2, hT, ⟨s, hs2⟩, hn⟩
    | false =>
      obtain ⟨s0, rfl⟩ : ∃ s0, v = PyVal.vstr s0 := by
        cases v with
        | vint n => simp [isIntVal] at hv
        | vstr s0 => exact ⟨s0, rfl⟩
      have hstep1 : (PyVal.vstr s0 :: T).all isIntVal = false := by
        rw [List.all_cons]
        simp [isIntVal]
      have hstep2 : (PyVal.vstr s0 :: T).dropWhile isIntVal = PyVal.vstr s0 :: T := by
        rw [List.dropWhile_cons]
        simp [isIntVal]
      rw [hstep1, hstep2]
      simp only [List.tail_cons]
      constructor
      · rintro ⟨_, hTstr⟩
        obtain ⟨u, hu, hus⟩ := List.all_eq_false.1 hTstr
        obtain ⟨n, rfl⟩ : ∃ n, u = PyVal.vint n := by
          cases u with
          | vint n => exact ⟨n, rfl⟩
          | vstr s => simp [isStrVal] at hus
        exact ⟨[PyVal.vstr s0], T, rfl, ⟨s0, List.mem_singleton.2 rfl⟩, ⟨n, hu⟩⟩
      · rintro ⟨l1, l2, heq, _, ⟨n, hn⟩⟩
        refine ⟨by trivial, ?_⟩
        have hmem : PyVal.vint n ∈ PyVal.vstr s0 :: T := by
          rw [heq]
          exact List.mem_append.2 (Or.inr hn)
        have hmemT : PyVal.vint n ∈ T := by
          rcases List.mem_cons.1 hmem with h | h
          · exact absurd h (by simp)
          · exact h
        exact List.all_eq_false.2 ⟨PyVal.vint n, hmemT, by simp [isStrVal]⟩

/-- C6 (amended): the combined indexing operation raises a fatal type
error for a range exactly when, among the truthy components of start,
stop and step in order, some string appears strictly before some
integer.  Falsy components (None, 0, the empty string) are dropped by
filter(None, ...) beforehand, and because that filter iterator is
consumed by the first isinstance check, a mix whose truthy integers all
precede the first string — such as slice(1, name) or
slice(1, 2, name) — is accepted and handled as a name range instead of
raising. -/
theorem c6_amended (g : OdkGraph) (key : PySlice) :
    g.get_slicer key = .error .typeError ↔
      ∃ l1 l2, truthyVals key = l1 ++ l2 ∧
        (∃ s, PyVal.vstr s ∈ l1) ∧ (∃ n, PyVal.vint n ∈ l2) := by
  rw [← split_str_int_iff]
  unfold OdkGraph.get_slicer
  by_cases hint : (truthyVals key).all isIntVal
  · rw [if_pos hint]
    simp only [reduceCtorEq, false_iff, not_and]
    intro hf
    rw [hint] at hf
    cases hf
  · rw [if_neg hint]
    by_cases hstr : (((truthyVals key).dropWhile isIntVal).tail).all isStrVal
    · rw [if_pos hstr]
      obtain ⟨o1, ho1⟩ := sliceBound_ok g key.start
      obtain ⟨o2, ho2⟩ := sliceBound_ok g key.stop
      rw [ho1, ho2]
      simp only [reduceCtorEq, false_iff, not_and]
      intro _ hc
      rw [hstr] at hc
      cases hc
    · rw [if_neg hstr]
      simp only [true_iff]
      exact ⟨Bool.eq_false_iff.2 hint, Bool.eq_false_iff.2 hstr⟩

/-- Witness for the amended C6: a range with name start a and truthy
integer stop 1 — a string before an integer — is rejected with the
type error. -/
theorem c6_amended_witness :
    gAB.get_slicer ⟨some (.vstr "a"), some (.vint 1), none⟩ = .error .typeError :=
  (c6_amended gAB ⟨some (.vstr "a"), some (.vint 1), none⟩).2
    ⟨[PyVal.vstr "a"], [PyVal.vint 1], by decide, ⟨"a", by decide⟩, ⟨1, by decide⟩⟩

theorem pyListSlice_int_ok (l : List XlsFormRow) (startO stopO : Option Int) :
    ∃ out, pyListSlice l ⟨startO.map PyVal.vint, stopO.map PyVal.vint, none⟩ = .ok out := by
  cases startO <;> cases stopO <;>
    · simp only [pyListSlice, pySliceVal, Option.map_some, Option.map_none]
      exact ⟨_, rfl⟩

/-- C10: a name-based range never raises the lookup error that direct
name access raises.  With truthy name bounds the range always returns
an ordered sub-sequence; whichever bound names a row missing from
node_lookup — start or stop — is silently converted to an open bound,
while direct access to that same missing name is a KeyError naming
it. -/
theorem c10_open_bound (g : OdkGraph) (s1 s2 : String) (h1 : s1 ≠ "") (h2 : s2 ≠ "") :
    (∃ l, g.getItem (.kslice ⟨some (.vstr s1), some (.vstr s2), none⟩) = .ok (.nodes l)) ∧
    (node_lookup_get g.ordered_nodes (some s1) = none →
      (∃ stopN : Option Int, g.get_slicer ⟨some (.vstr s1), some (.vstr s2), none⟩ =
        .ok ⟨none, stopN.map PyVal.vint, none⟩) ∧
      g.getItem (.kstr s1) = .error (.keyError (some s1))) ∧
    (node_lookup_get g.ordered_nodes (some s2) = none →
      (∃ startN : Option Int, g.get_slicer ⟨some (.vstr s1), some (.vstr s2), none⟩ =
        .ok ⟨startN.map PyVal.vint, none, none⟩) ∧
      g.getItem (.kstr s2) = .error (.keyError (some s2))) := by
  have ht : truthyVals ⟨some (.vstr s1), some (.vstr s2), none⟩ = [.vstr s1, .vstr s2] := by
    simp [truthyVals, pyTruthyVal, h1, h2]
  obtain ⟨o1, ho1⟩ := sliceBound_ok g (some (.vstr s1))
  obtain ⟨o2, ho2⟩ := sliceBound_ok g (some (.vstr s2))
  have hslicer : g.get_slicer ⟨some (.vstr s1), some (.vstr s2), none⟩ =
      .ok ⟨o1.map PyVal.vint, o2.map PyVal.vint, none⟩ := by
    simp only [OdkGraph.get_slicer, ht]
    rw [if_neg (by simp [isIntVal]),
      if_pos (by simp [List.dropWhile_cons, isIntVal, isStrVal])]
    show (match sliceBound g (some (PyVal.vstr s1)) with
      | Except.error e => Except.error e
      | Except.ok startN =>
        match sliceBound g (some (PyVal.vstr s2)) with
        | Except.error e => Except.error e
        | Except.ok stopN =>
          Except.ok (PySlice.mk (startN.map PyVal.vint) (stopN.map PyVal.vint) none)) =
      Except.ok (PySlice.mk (o1.map PyVal.vint) (o2.map PyVal.vint) none)
    rw [ho1, ho2]
  refine ⟨?_, ?_, ?_⟩
  · obtain ⟨out, hout⟩ := pyListSlice_int_ok g.ordered_nodes o1 o2
    refine ⟨out, ?_⟩
    simp only [OdkGraph.getItem]
    rw [hslicer]
    show (match pyListSlice g.ordered_nodes
        (PySlice.mk (o1.map PyVal.vint) (o2.map PyVal.vint) none) with
      | Except.error e => Except.error e
      | Except.ok rs => Except.ok (PyRes.nodes rs)) = Except.ok (PyRes.nodes out)
    rw [hout]
  · intro hmiss1
    have hs1 : sliceBound g (some (.vstr s1)) = .ok none := by
      simp only [sliceBound]
      rw [hmiss1]
    have hnone : o1 = none := by
      have hh := hs1.symm.trans ho1
      cases hh
      rfl
    rw [hnone] at hslicer
    refine ⟨⟨o2, hslicer⟩, ?_⟩
    simp only [OdkGraph.getItem]
    rw [hmiss1]
  · intro hmiss2
    have hs2 : sliceBound g (some (.vstr s2)) = .ok none := by
      simp only [sliceBound]
      rw [hmiss2]
    have hnone : o2 = none := by
      have hh := hs2.symm.trans ho2
      cases hh
      rfl
    rw [hnone] at hslicer
    refine ⟨⟨o1, hslicer⟩, ?_⟩
    simp only [OdkGraph.getItem]
    rw [hmiss2]

/-- Witness for C10 at the two-row fixture graph: the name zz is
missing; the range from zz to b returns a sub-sequence with an open
start, the range from a to zz returns one with an open stop, and direct
access to zz is the KeyError. -/
theorem c10_open_bound_witness :
    (∃ l, gAB.getItem (.kslice ⟨some (.vstr "zz"), some (.vstr "b"), none⟩) =
      .ok (.nodes l)) ∧
    ((∃ stopN : Option Int, gAB.get_slicer ⟨some (.vstr "zz"), some (.vstr "b"), none⟩ =
        .ok ⟨none, stopN.map PyVal.vint, none⟩) ∧
      gAB.getItem (.kstr "zz") = .error (.keyError (some "zz"))) ∧
    ((∃ startN : Option Int, gAB.get_slicer ⟨some (.vstr "a"), some (.vstr "zz"), none⟩ =
        .ok ⟨startN.map PyVal.vint, none, none⟩) ∧
      gAB.getItem (.kstr "zz") = .error (.keyError (some "zz"))) :=
  ⟨(c10_open_bound gAB "zz" "b" (by decide) (by decide)).1,
   (c10_open_bound gAB "zz" "b" (by decide) (by decide)).2.1 (by decide),
   (c10_open_bound gAB "a" "zz" (by decide) (by decide)).2.2 (by decide)⟩

theorem exceptMapM_error_elim {f : α → Except PyErr β} {l : List α} {e : PyErr}
    (h : exceptMapM f l = .error e) : ∃ a ∈ l, f a = .error e := by
  induction l with
  | nil => rw [exceptMapM] at h; cases h
  | cons x xs ih =>
    rw [exceptMapM] at h
    cases hf : f x with
    | error e0 =>
      rw [hf] at h
      cases h
      exact ⟨x, List.mem_cons_self _ _, hf⟩
    | ok y =>
      rw [hf] at h
      cases hrec : exceptMapM f xs with
      | error e0 =>
        rw [hrec] at h
        cases h
        obtain ⟨a, ha, hfa⟩ := ih hrec
        exact ⟨a, List.mem_cons_of_mem _ ha, hfa⟩
      | ok ys => rw [hrec] at h; cases h

theorem build_ok_parts {sheet : List (List String)} {g : OdkGraph}
    (h : OdkGraph.build sheet = .ok g) :
    parse_ordered_nodes sheet = .ok g.ordered_nodes ∧
    exceptMapM (resolveDeps g.ordered_nodes) g.ordered_nodes = .ok g.dependencies := by
  unfold OdkGraph.build at h
  cases hp : parse_ordered_nodes sheet with
  | error e => rw [hp] at h; cases h
  | ok nodes =>
    rw [hp] at h
    have h2 : (match exceptMapM (resolveDeps nodes) nodes with
      | Except.error e => (Except.error e : Except PyErr OdkGraph)
      | Except.ok deps => Except.ok ⟨nodes, deps⟩) = Except.ok g := h
    cases hm : exceptMapM (resolveDeps nodes) nodes with
    | error e => rw [hm] at h2; cases h2
    | ok deps =>
      rw [hm] at h2
      cases h2
      exact ⟨rfl, hm⟩

theorem resolveDeps_ok_parts {nodes : List XlsFormRow} {n : XlsFormRow} {ds : List XlsFormRow}
    (h : resolveDeps nodes n = .ok ds) :
    ∃ us, exceptMapM (lookupDep nodes) n.dependency_counter = .ok us ∧
      ds = List.insertionSort rowLe us := by
  unfold resolveDeps at h
  cases hm : exceptMapM (lookupDep nodes) n.dependency_counter with
  | error e => rw [hm] at h; cases h
  | ok us =>
    rw [hm] at h
    cases h
    exact ⟨us, rfl, rfl⟩

theorem resolveDeps_error_parts {nodes : List XlsFormRow} {n : XlsFormRow} {e : PyErr}
    (h : resolveDeps nodes n = .error e) :
    ∃ k ∈ n.dependency_counter, e = .keyError k ∧ node_lookup_get nodes k = none := by
  unfold resolveDeps at h
  cases hm : exceptMapM (lookupDep nodes) n.dependency_counter with
  | error e0 =>
    rw [hm] at h
    cases h
    obtain ⟨k, hk, hfk⟩ := exceptMapM_error_elim hm
    refine ⟨k, hk, ?_⟩
    unfold lookupDep at hfk
    cases hl : node_lookup_get nodes k with
    | none => rw [hl] at hfk; cases hfk; exact ⟨rfl, rfl⟩
    | some r => rw [hl] at hfk; cases hfk
  | ok us => rw [hm] at h; cases h

theorem lookupDep_ok_parts {nodes : List XlsFormRow} {k : Option String} {d : XlsFormRow}
    (h : lookupDep nodes k = .ok d) : d ∈ nodes ∧ some d.row_name = k := by
  unfold lookupDep at h
  cases hl : node_lookup_get nodes k with
  | none => rw [hl] at h; cases h
  | some r =>
    rw [hl] at h
    cases h
    cases k with
    | none => cases hl
    | some s =>
      obtain ⟨hmem, hname⟩ := node_lookup_get_some hl
      exact ⟨hmem, by rw [hname]⟩

/-- C2: for every node of a constructed graph parsed under a non-empty
ancestor stack, the innermost ancestor's name is among its dependency
names, and the node's resolved dependency list contains a node whose
name is that innermost ancestor. -/
theorem c2_innermost_ancestor {sheet : List (List String)} {g : OdkGraph}
    (h : OdkGraph.build sheet = .ok g) :
    ∀ p ∈ g.depPairs, ∀ a, p.1.ancestors.getLast? = some a →
      a ∈ p.1.dependency_counter ∧ ∃ d ∈ p.2, some d.row_name = a := by
  obtain ⟨hp, hm⟩ := build_ok_parts h
  intro p hpmem a ha
  have hres : resolveDeps g.ordered_nodes p.1 = .ok p.2 :=
    (exceptMapM_ok_zip hm).2 p hpmem
  have hmem : a ∈ p.1.dependency_counter := by
    unfold XlsFormRow.dependency_counter XlsFormRow.parse_dependencies
    rw [ha]
    exact mem_counterUpdate.2 (Or.inr (List.mem_singleton.2 rfl))
  refine ⟨hmem, ?_⟩
  obtain ⟨us, hus, hsort⟩ := resolveDeps_ok_parts hres
  obtain ⟨u, humem, hu⟩ := exceptMapM_ok_mem hus hmem
  obtain ⟨humem2, hname⟩ := lookupDep_ok_parts hu
  refine ⟨u, ?_, hname⟩
  rw [hsort]
  exact (List.perm_insertionSort rowLe us).mem_iff.2 humem

/-- C3: if any parsed node's dependency names contain a name absent
from the name lookup, construction fails with a KeyError carrying a
missing dependency name; no graph value is produced. -/
theorem c3_unknown_dependency {sheet : List (List String)} {nodes : List XlsFormRow}
    (hp : parse_ordered_nodes sheet = .ok nodes) {n : XlsFormRow} (hn : n ∈ nodes)
    {k : Option String} (hk : k ∈ n.dependency_counter)
    (hmiss : node_lookup_get nodes k = none) :
    ∃ bad, OdkGraph.build sheet = .error (.keyError bad) ∧
      node_lookup_get nodes bad = none ∧ ∃ m ∈ nodes, bad ∈ m.dependency_counter := by
  have hfail : lookupDep nodes k = .error (.keyError k) := by
    unfold lookupDep
    rw [hmiss]
  obtain ⟨e1, ⟨a1, ha1, hfa1⟩, hmm1⟩ := exceptMapM_error_of_mem hk hfail
  have hres : resolveDeps nodes n = .error e1 := by
    unfold resolveDeps
    rw [hmm1]
  obtain ⟨e2, ⟨n2, hn2, hfn2⟩, hmm2⟩ := exceptMapM_error_of_mem hn hres
  obtain ⟨k2, hk2, he2, hl2⟩ := resolveDeps_error_parts hfn2
  refine ⟨k2, ?_, hl2, n2, hn2, hk2⟩
  unfold OdkGraph.build
  rw [hp]
  show (match exceptMapM (resolveDeps nodes) nodes with
    | Except.error e => (Except.error e : Except PyErr OdkGraph)
    | Except.ok deps => Except.ok ⟨nodes, deps⟩) = Except.error (PyErr.keyError k2)
  rw [hmm2, he2]

/-- Fixture sheet with one group enclosing two questions, the second
referencing the first. -/
def sheetGrp : List (List String) :=
  [["type", "name", "calculation"], ["begin group", "g", ""],
   ["text", "a", ""], ["text", "b", "${a}"], ["end group", ""]]

/-- The group row of the fixture sheet. -/
def rowGrpG : XlsFormRow :=
  ⟨1, "begin group", "g", [("type", "begin group"), ("name", "g"), ("calculation", "")], []⟩

/-- The first question row of the fixture sheet. -/
def rowGrpA : XlsFormRow :=
  ⟨2, "text", "a", [("type", "text"), ("name", "a"), ("calculation", "")], [some "g"]⟩

/-- The second question row of the fixture sheet, referencing a. -/
def rowGrpB : XlsFormRow :=
  ⟨3, "text", "b", [("type", "text"), ("name", "b"), ("calculation", "${a}")], [some "g"]⟩

/-- The graph constructed from the group fixture sheet. -/
def gGrp : OdkGraph :=
  ⟨[rowGrpG, rowGrpA, rowGrpB], [[], [rowGrpG], [rowGrpG, rowGrpA]]⟩

theorem build_gGrp : OdkGraph.build sheetGrp = .ok gGrp := by decide

/-- Witness for C2 at the group fixture: question a sits under group g;
its dependency names contain g and its resolved list contains the group
node named g. -/
theorem c2_innermost_ancestor_witness :
    some "g" ∈ rowGrpA.dependency_counter ∧
    ∃ d ∈ [rowGrpG], some d.row_name = some "g" :=
  c2_innermost_ancestor build_gGrp (rowGrpA, [rowGrpG]) (by decide) (some "g") (by decide)

/-- The single question row of the undefined-reference fixture. -/
def rowX : XlsFormRow :=
  ⟨1, "text", "x", [("type", "text"), ("name", "x"), ("calculation", "${y}")], []⟩

/-- Witness for C3: a sheet whose single question references the
undefined name y fails to build with a KeyError on a missing name. -/
theorem c3_unknown_dependency_witness :
    ∃ bad, OdkGraph.build [["type", "name", "calculation"], ["text", "x", "${y}"]] =
        .error (.keyError bad) ∧
      node_lookup_get [rowX] bad = none ∧
      ∃ m ∈ [rowX], bad ∈ m.dependency_counter :=
  @c3_unknown_dependency [["type", "name", "calculation"], ["text", "x", "${y}"]]
    [rowX] (by decide) rowX (by decide) (some "y") (by decide) (by decide)

theorem mem_foldl_dedup {l acc : List XlsFormRow} {x : XlsFormRow}
    (h : x ∈ l.foldl (fun acc x => if elemPy x acc then acc else acc ++ [x]) acc) :
    x ∈ acc ∨ x ∈ l := by
  induction l generalizing acc with
  | nil => exact Or.inl h
  | cons y ys ih =>
    rw [List.foldl_cons] at h
    rcases ih h with h2 | h2
    · by_cases hy : elemPy y acc
      · rw [if_pos hy] at h2
        exact Or.inl h2
      · rw [if_neg hy] at h2
        rcases List.mem_append.1 h2 with h3 | h3
        · exact Or.inl h3
        · exact Or.inr (List.mem_cons_self y ys |> fun hm => (List.mem_singleton.1 h3) ▸ hm)
    · exact Or.inr (List.mem_cons_of_mem y h2)

theorem mem_dedupPy {l : List XlsFormRow} {x : XlsFormRow} (h : x ∈ dedupPy l) : x ∈ l := by
  rcases mem_foldl_dedup h with h2 | h2
  · cases h2
  · exact h2

theorem elemPy_foldl_dedup (z : XlsFormRow) (l : List XlsFormRow) :
    ∀ acc, elemPy z (l.foldl (fun acc x => if elemPy x acc then acc else acc ++ [x]) acc) =
      (elemPy z acc || elemPy z l) := by
  induction l with
  | nil => intro acc; simp [elemPy]
  | cons y ys ih =>
    intro acc
    rw [List.foldl_cons, ih]
    have hcons : elemPy z (y :: ys) = (pyEq z y || elemPy z ys) := by
      simp [elemPy]
    by_cases hy : elemPy y acc
    · rw [if_pos hy, hcons]
      by_cases hzy : pyEq z y = true
      · have : elemPy z acc = true := by
          rw [elemPy_congr hzy]
          exact hy
        rw [this, hzy]
        rfl
      · rw [Bool.eq_false_iff.2 hzy]
        rfl
    · rw [if_neg hy, hcons, elemPy_append]
      have : elemPy z [y] = pyEq z y := by simp [elemPy]
      rw [this]
      cases elemPy z acc <;> cases pyEq z y <;> cases elemPy z ys <;> rfl

theorem elemPy_dedupPy (z : XlsFormRow) (l : List XlsFormRow) :
    elemPy z (dedupPy l) = elemPy z l := by
  unfold dedupPy
  rw [elemPy_foldl_dedup]
  rfl

theorem reachTo_mem_elim {g : OdkGraph} {n x : XlsFormRow} (h : x ∈ reachTo g n) :
    x = n ∨ x ∈ g.ordered_nodes := by
  unfold reachTo at h
  suffices hgen : ∀ (k : Nat) (s : List XlsFormRow), (∀ y ∈ s, y = n ∨ y ∈ g.ordered_nodes) →
      ∀ y ∈ (predStep g)^[k] s, y = n ∨ y ∈ g.ordered_nodes by
    exact hgen g.ordered_nodes.length [n] (by simp) x h
  intro k
  induction k with
  | zero => intro s hs y hy; exact hs y hy
  | succ k ih =>
    intro s hs y hy
    rw [Function.iterate_succ_apply] at hy
    refine ih (predStep g s) ?_ y hy
    intro z hz
    unfold predStep at hz
    rcases List.mem_append.1 hz with h2 | h2
    · exact hs z h2
    · exact Or.inr (List.mem_filter.1 h2).1

theorem nxAncestors_ok_parts {g : OdkGraph} {a : XlsFormRow} {anc : List XlsFormRow}
    (h : g.nxAncestors a = .ok anc) :
    elemPy a g.ordered_nodes = true ∧
      anc = (reachTo g a).filter (fun m => !(pyEq m a)) := by
  unfold OdkGraph.nxAncestors at h
  split at h
  · cases h
    next he => exact ⟨he, rfl⟩
  · cases h

/-- C7: whatever nodes are given as input, the ancestor-closure query
returns a list that contains no input node (under Python equality), is
sorted ascending by position, and draws only from the graph's node
set. -/
theorem c7_all_dependencies {g : OdkGraph} {ns out : List XlsFormRow}
    (h : g.all_dependencies_from_nodes ns = .ok out) :
    (∀ x ∈ out, elemPy x ns = false) ∧ List.Sorted rowLe out ∧
    ∀ x ∈ out, x ∈ g.ordered_nodes := by
  simp only [OdkGraph.all_dependencies_from_nodes] at h
  cases hm : exceptMapM (fun n => g.nxAncestors n) (dedupPy ns) with
  | error e => rw [hm] at h; cases h
  | ok ancLists =>
    rw [hm] at h
    cases h
    have hmemout : ∀ x, x ∈ List.insertionSort rowLe
        ((dedupPy ancLists.flatten).filter (fun x => !(elemPy x (dedupPy ns)))) ↔
        x ∈ (dedupPy ancLists.flatten).filter (fun x => !(elemPy x (dedupPy ns))) :=
      fun x => (List.perm_insertionSort rowLe _).mem_iff
    refine ⟨?_, List.sorted_insertionSort rowLe _, ?_⟩
    · intro x hx
      have := (List.mem_filter.1 ((hmemout x).1 hx)).2
      rw [← elemPy_dedupPy]
      simpa using this
    · intro x hx
      have hx2 := (List.mem_filter.1 ((hmemout x).1 hx)).1
      have hx3 := mem_dedupPy hx2
      obtain ⟨anc, hanc, hxanc⟩ := List.mem_flatten.1 hx3
      obtain ⟨a, ha, hfa⟩ := exceptMapM_mem_of_ok hm hanc
      obtain ⟨hae, hancEq⟩ := nxAncestors_ok_parts hfa
      rw [hancEq] at hxanc
      have hfilter := List.mem_filter.1 hxanc
      rcases reachTo_mem_elim hfilter.1 with rfl | hmem
      · exfalso
        have := hfilter.2
        rw [pyEq_refl] at this
        cases this
      · exact hmem

/-- Witness for C7 at the group fixture: the closure of question b is
the group node and question a, sorted by position, neither of which is
the input node b. -/
theorem c7_all_dependencies_witness :
    (∀ x ∈ [rowGrpG, rowGrpA], elemPy x [rowGrpB] = false) ∧
    List.Sorted rowLe [rowGrpG, rowGrpA] ∧
    ∀ x ∈ [rowGrpG, rowGrpA], x ∈ gGrp.ordered_nodes :=
  c7_all_dependencies (by decide)

theorem build_ok_pairwise {sheet : List (List String)} {g : OdkGraph}
    (h : OdkGraph.build sheet = .ok g) :
    List.Pairwise (fun a b : XlsFormRow => a.rowx < b.rowx) g.ordered_nodes := by
  obtain ⟨hp, _⟩ := build_ok_parts h
  match sheet with
  | [] => cases hp
  | header :: rest =>
    rw [parse_ordered_nodes] at hp
    exact (parseRows_ok_spec hp).1

theorem nodup_of_pairwise_rowx {nodes : List XlsFormRow}
    (hpw : List.Pairwise (fun a b : XlsFormRow => a.rowx < b.rowx) nodes) : nodes.Nodup :=
  hpw.imp (fun hlt heq => absurd (heq ▸ hlt) (Nat.lt_irrefl _))

theorem pyEq_eq_of_pairwise {nodes : List XlsFormRow}
    (hpw : List.Pairwise (fun a b : XlsFormRow => a.rowx < b.rowx) nodes)
    {a b : XlsFormRow} (ha : a ∈ nodes) (hb : b ∈ nodes) (h : pyEq a b = true) : a = b := by
  induction nodes with
  | nil => cases ha
  | cons x xs ih =>
    have hx := List.pairwise_cons.1 hpw
    rcases List.mem_cons.1 ha with rfl | ha' <;> rcases List.mem_cons.1 hb with rfl | hb'
    · rfl
    · exfalso
      have hlt := hx.1 b hb'
      have := (pyEq_iff.1 h).1
      omega
    · exfalso
      have hlt := hx.1 a ha'
      have := (pyEq_iff.1 h).1
      omega
    · exact ih hx.2 ha' hb'

theorem resolveDeps_ok_subset {nodes : List XlsFormRow} {n : XlsFormRow}
    {ds : List XlsFormRow} (h : resolveDeps nodes n = .ok ds) : ∀ d ∈ ds, d ∈ nodes := by
  obtain ⟨us, hus, hsort⟩ := resolveDeps_ok_parts h
  intro d hd
  rw [hsort] at hd
  have hd2 := (List.perm_insertionSort rowLe us).mem_iff.1 hd
  obtain ⟨k, _, hfk⟩ := exceptMapM_mem_of_ok hus hd2
  exact (lookupDep_ok_parts hfk).1

theorem build_ok_deps_subset {sheet : List (List String)} {g : OdkGraph}
    (h : OdkGraph.build sheet = .ok g) :
    ∀ p ∈ g.depPairs, ∀ d ∈ p.2, d ∈ g.ordered_nodes := by
  obtain ⟨_, hm⟩ := build_ok_parts h
  intro p hp d hd
  exact resolveDeps_ok_subset ((exceptMapM_ok_zip hm).2 p hp) d hd

theorem mem_edges_iff {g : OdkGraph} {e : XlsFormRow × XlsFormRow} :
    e ∈ g.edges ↔ ∃ p ∈ g.depPairs, ∃ d ∈ p.2, e = (d, p.1) := by
  unfold OdkGraph.edges dependency_pair_iter DIRECTED_TO_DEPENDENCY
  rw [List.mem_flatMap]
  constructor
  · rintro ⟨p, hp, he⟩
    simp only [Bool.false_eq_true, if_false, List.mem_map] at he
    obtain ⟨d, hd, rfl⟩ := he
    exact ⟨p, hp, d, hd, rfl⟩
  · rintro ⟨p, hp, d, hd, rfl⟩
    refine ⟨p, hp, ?_⟩
    simp only [Bool.false_eq_true, if_false, List.mem_map]
    exact ⟨d, hd, rfl⟩

theorem edgeMem_iff {g : OdkGraph} {a b : XlsFormRow} :
    edgeMem g a b = true ↔
      ∃ p ∈ g.depPairs, ∃ d ∈ p.2, pyEq d a = true ∧ pyEq p.1 b = true := by
  unfold edgeMem
  rw [List.any_eq_true]
  constructor
  · rintro ⟨e, he, hpe⟩
    obtain ⟨p, hp, d, hd, rfl⟩ := mem_edges_iff.1 he
    simp only [Bool.and_eq_true] at hpe
    exact ⟨p, hp, d, hd, hpe.1, hpe.2⟩
  · rintro ⟨p, hp, d, hd, h1, h2⟩
    refine ⟨(d, p.1), mem_edges_iff.2 ⟨p, hp, d, hd, rfl⟩, ?_⟩
    rw [Bool.and_eq_true]
    exact ⟨h1, h2⟩

theorem zip_right_unique {nodes : List XlsFormRow} {deps : List (List XlsFormRow)}
    (hnd : nodes.Nodup) {n : XlsFormRow} {ds ds' : List XlsFormRow}
    (h1 : (n, ds) ∈ nodes.zip deps) (h2 : (n, ds') ∈ nodes.zip deps) : ds = ds' := by
  induction nodes generalizing deps with
  | nil => cases h1
  | cons x xs ih =>
    cases deps with
    | nil => cases h1
    | cons d ds0 =>
      have hx := List.nodup_cons.1 hnd
      rw [List.zip_cons_cons] at h1 h2
      rcases List.mem_cons.1 h1 with he1 | h1' <;> rcases List.mem_cons.1 h2 with he2 | h2'
      · cases he1
        cases he2
        rfl
      · cases he1
        exact absurd (List.of_mem_zip h2').1 hx.1
      · cases he2
        exact absurd (List.of_mem_zip h1').1 hx.1
      · exact ih hx.2 h1' h2'

/-- C9: in a constructed graph with the default orientation flag, edges
run from dependency to dependent, so the successors of node n are
exactly the graph nodes whose resolved dependency list contains n, and
the predecessors of n are exactly n's own resolved dependency list,
without duplicates. -/
theorem c9_edge_orientation {sheet : List (List String)} {g : OdkGraph}
    (h : OdkGraph.build sheet = .ok g) {n : XlsFormRow} (hn : n ∈ g.ordered_nodes) :
    (∀ ls, g.successors n = .ok ls →
      ∀ m, m ∈ ls ↔ ∃ ds, (m, ds) ∈ g.depPairs ∧ n ∈ ds) ∧
    (∀ lp, g.predecessors n = .ok lp → lp.Nodup ∧
      ∀ ds, (n, ds) ∈ g.depPairs → ∀ m, m ∈ lp ↔ m ∈ ds) := by
  have hpw := build_ok_pairwise h
  have hnd := nodup_of_pairwise_rowx hpw
  have hsub := build_ok_deps_subset h
  have hzipl : ∀ p, p ∈ g.depPairs → p.1 ∈ g.ordered_nodes := by
    intro p hp
    have : (p.1, p.2) ∈ g.ordered_nodes.zip g.dependencies := hp
    exact (List.of_mem_zip this).1
  constructor
  · intro ls hls m
    unfold OdkGraph.successors at hls
    rw [if_pos (elemPy_of_mem hn)] at hls
    cases hls
    rw [List.mem_filter]
    constructor
    · rintro ⟨hm, hedge⟩
      obtain ⟨p, hp, d, hd, h1, h2⟩ := edgeMem_iff.1 hedge
      have hdn : d = n := pyEq_eq_of_pairwise hpw (hsub p hp d hd) hn h1
      have hpm : p.1 = m := pyEq_eq_of_pairwise hpw (hzipl p hp) hm h2
      refine ⟨p.2, ?_, hdn ▸ hd⟩
      have : p = (m, p.2) := by
        rw [← hpm]
      rw [← this]
      exact hp
    · rintro ⟨ds, hds, hnds⟩
      have hm : m ∈ g.ordered_nodes := (List.of_mem_zip hds).1
      refine ⟨hm, edgeMem_iff.2 ⟨(m, ds), hds, n, hnds, pyEq_refl n, pyEq_refl m⟩⟩
  · intro lp hlp
    unfold OdkGraph.predecessors at hlp
    rw [if_pos (elemPy_of_mem hn)] at hlp
    cases hlp
    refine ⟨hnd.filter _, ?_⟩
    intro ds hds m
    rw [List.mem_filter]
    constructor
    · rintro ⟨hm, hedge⟩
      obtain ⟨p, hp, d, hd, h1, h2⟩ := edgeMem_iff.1 hedge
      have hdm : d = m := pyEq_eq_of_pairwise hpw (hsub p hp d hd) hm h1
      have hpn : p.1 = n := pyEq_eq_of_pairwise hpw (hzipl p hp) hn h2
      have hpds : p.2 = ds := by
        refine zip_right_unique hnd ?_ hds
        have : p = (n, p.2) := by rw [← hpn]
        rw [← this]
        exact hp
      rw [← hpds, ← hdm]
      exact hd
    · intro hm
      refine ⟨hsub (n, ds) hds m hm, ?_⟩
      exact edgeMem_iff.2 ⟨(n, ds), hds, m, hm, pyEq_refl m, pyEq_refl n⟩

/-- Witness for C9 at the group fixture: the successors of question a
are exactly the nodes depending on a (question b), and the predecessors
of b are exactly b's resolved dependencies. -/
theorem c9_edge_orientation_witness :
    (∀ ls, gGrp.successors rowGrpA = .ok ls →
      ∀ m, m ∈ ls ↔ ∃ ds, (m, ds) ∈ gGrp.depPairs ∧ rowGrpA ∈ ds) ∧
    (∀ lp, gGrp.predecessors rowGrpA = .ok lp → lp.Nodup ∧
      ∀ ds, (rowGrpA, ds) ∈ gGrp.depPairs → ∀ m, m ∈ lp ↔ m ∈ ds) :=
  c9_edge_orientation build_gGrp (by decide)

theorem chainB_iff {f : XlsFormRow → XlsFormRow → Bool} :
    ∀ {l : List XlsFormRow}, chainB f l = true ↔
      List.Chain' (fun a b => f a b = true) l
  | [] => by simp [chainB]
  | [a] => by simp [chainB]
  | a :: b :: t => by
    rw [chainB, Bool.and_eq_true, List.chain'_cons, chainB_iff]

theorem edgeMem_congr {g : OdkGraph} {a a' b b' : XlsFormRow}
    (h1 : pyEq a a' = true) (h2 : pyEq b b' = true) :
    edgeMem g a b = edgeMem g a' b' := by
  cases he : edgeMem g a' b' with
  | true =>
    obtain ⟨e, hemem, hpe⟩ := List.any_eq_true.1 he
    simp only [Bool.and_eq_true] at hpe
    refine List.any_eq_true.2 ⟨e, hemem, ?_⟩
    rw [Bool.and_eq_true]
    exact ⟨pyEq_trans hpe.1 (pyEq_symm h1), pyEq_trans hpe.2 (pyEq_symm h2)⟩
  | false =>
    cases hq : edgeMem g a b with
    | false => rfl
    | true =>
      exfalso
      obtain ⟨e, hemem, hpe⟩ := List.any_eq_true.1 hq
      simp only [Bool.and_eq_true] at hpe
      have : edgeMem g a' b' = true := by
        refine List.any_eq_true.2 ⟨e, hemem, ?_⟩
        rw [Bool.and_eq_true]
        exact ⟨pyEq_trans hpe.1 h1, pyEq_trans hpe.2 h2⟩
      rw [he] at this
      cases this

theorem elemPy_predStep {g : OdkGraph} {s : List XlsFormRow} {x : XlsFormRow}
    (h : elemPy x s = true) : elemPy x (predStep g s) = true := by
  unfold predStep
  rw [elemPy_append, h]
  rfl

theorem elemPy_iterate {g : OdkGraph} {s : List XlsFormRow} {x : XlsFormRow}
    (h : elemPy x s = true) : ∀ k, elemPy x ((predStep g)^[k] s) = true := by
  intro k
  induction k generalizing s with
  | zero => exact h
  | succ k ih =>
    rw [Function.iterate_succ_apply]
    exact ih (elemPy_predStep h)

/-- Every member of the backward closure really has a directed path to
the seed vertex, through graph nodes. -/
theorem reachTo_sound {g : OdkGraph} {n x : XlsFormRow} (h : x ∈ reachTo g n) :
    ∃ p, List.Chain' (fun a b => edgeMem g a b = true) (x :: p) ∧
      (x :: p).getLast? = some n ∧ ∀ y ∈ x :: p, y = n ∨ y ∈ g.ordered_nodes := by
  unfold reachTo at h
  suffices hgen : ∀ (k : Nat), ∀ y ∈ (predStep g)^[k] [n],
      ∃ p, List.Chain' (fun a b => edgeMem g a b = true) (y :: p) ∧
        (y :: p).getLast? = some n ∧ ∀ z ∈ y :: p, z = n ∨ z ∈ g.ordered_nodes by
    exact hgen g.ordered_nodes.length x h
  intro k
  induction k with
  | zero =>
    intro y hy
    rcases List.mem_singleton.1 hy with rfl
    exact ⟨[], List.chain'_singleton y, rfl, by simp⟩
  | succ k ih =>
    intro y hy
    rw [Function.iterate_succ_apply'] at hy
    unfold predStep at hy
    rcases List.mem_append.1 hy with h2 | h2
    · exact ih y h2
    · have hf := List.mem_filter.1 h2
      have hy1 : y ∈ g.ordered_nodes := hf.1
      have hy2 := hf.2
      simp only [Bool.and_eq_true] at hy2
      obtain ⟨z, hz, hez⟩ := List.any_eq_true.1 hy2.2
      obtain ⟨p, hch, hlast, hmem⟩ := ih z hz
      refine ⟨z :: p, ?_, ?_, ?_⟩
      · rw [List.chain'_cons]
        exact ⟨hez, hch⟩
      · rw [List.getLast?_cons_cons]
        exact hlast
      · intro w hw
        rcases List.mem_cons.1 hw with rfl | hw'
        · exact Or.inr hy1
        · exact hmem w hw'

theorem elemPy_predStep_of_step {g : OdkGraph} {s : List XlsFormRow} {x : XlsFormRow}
    (hx : x ∈ g.ordered_nodes) (hnot : elemPy x s = false)
    (hstep : s.any (fun z => edgeMem g x z) = true) : elemPy x (predStep g s) = true := by
  unfold predStep
  rw [elemPy_append]
  refine Bool.or_eq_true_iff.2 (Or.inr (elemPy_of_mem (List.mem_filter.2 ⟨hx, ?_⟩)))
  rw [Bool.and_eq_true]
  refine ⟨?_, hstep⟩
  rw [hnot]
  rfl

/-- Every directed walk through graph nodes ending at the seed vertex
puts its start into the backward closure after enough iterations. -/
theorem reachTo_complete {g : OdkGraph} {n : XlsFormRow} :
    ∀ (k : Nat) (p : List XlsFormRow) (x : XlsFormRow), p.length ≤ k →
      List.Chain' (fun a b => edgeMem g a b = true) (x :: p) →
      (x :: p).getLast? = some n → (∀ y ∈ x :: p, y ∈ g.ordered_nodes) →
      elemPy x ((predStep g)^[k] [n]) = true := by
  intro k
  induction k with
  | zero =>
    intro p x hlen hch hlast _
    have hp : p = [] := List.length_eq_zero.1 (Nat.le_zero.1 hlen)
    subst hp
    have : x = n := by simpa using hlast
    subst this
    exact elemPy_of_mem (List.mem_singleton.2 rfl)
  | succ k ih =>
    intro p x hlen hch hlast hmem
    cases p with
    | nil =>
      have : x = n := by simpa using hlast
      subst this
      exact elemPy_iterate (elemPy_of_mem (List.mem_singleton.2 rfl)) (k + 1)
    | cons y q =>
      rw [List.chain'_cons] at hch
      have hylast : ((y :: q).getLast? = some n) := by
        rw [List.getLast?_cons_cons] at hlast
        exact hlast
      have hyS : elemPy y ((predStep g)^[k] [n]) = true :=
        ih q y (by simp only [List.length_cons] at hlen; omega) hch.2 hylast
          (fun z hz => hmem z (List.mem_cons_of_mem x hz))
      rw [Function.iterate_succ_apply']
      by_cases hxS : elemPy x ((predStep g)^[k] [n]) = true
      · exact elemPy_predStep hxS
      · refine elemPy_predStep_of_step (hmem x (List.mem_cons_self x (y :: q)))
          (Bool.eq_false_iff.2 hxS) ?_
        obtain ⟨y', hy', hpy'⟩ := elemPy_iff.1 hyS
        refine List.any_eq_true.2 ⟨y', hy', ?_⟩
        rw [← edgeMem_congr (pyEq_refl x) hpy']
        exact hch.1

theorem exists_dup_decomposition {α : Type} {l : List α} (h : ¬ l.Nodup) :
    ∃ (x : α) (l1 l2 l3 : List α), l = l1 ++ x :: l2 ++ x :: l3 := by
  induction l with
  | nil => exact absurd List.nodup_nil h
  | cons a t ih =>
    by_cases ha : a ∈ t
    · obtain ⟨l2, l3, ht⟩ := List.append_of_mem ha
      exact ⟨a, [], l2, l3, by rw [ht]; rfl⟩
    · have hnt : ¬ t.Nodup := by
        intro hnd
        exact h (List.nodup_cons.2 ⟨ha, hnd⟩)
      obtain ⟨x, l1, l2, l3, ht⟩ := ih hnt
      exact ⟨x, a :: l1, l2, l3, by rw [ht]; rfl⟩

/-- Any closed directed walk of length at least one contains a simple
directed cycle on a subset of its vertices. -/
theorem exists_cycle_of_closed_walk {α : Type} {R : α → α → Prop} :
    ∀ (N : Nat) (w : List α), w.length ≤ N → 2 ≤ w.length → List.Chain' R w →
      w.head? = w.getLast? →
      ∃ c, c ≠ [] ∧ c.Nodup ∧ (∀ x ∈ c, x ∈ w) ∧ List.Chain' R (c ++ c.take 1) := by
  intro N
  induction N with
  | zero =>
    intro w hN h2
    omega
  | succ N ih =>
    intro w hN h2 hch hcl
    match w, h2 with
    | a :: b :: t, _ =>
      by_cases hnd : (a :: b :: t).dropLast.Nodup
      · refine ⟨(a :: b :: t).dropLast, by simp, hnd, ?_, ?_⟩
        · intro x hx
          exact (List.dropLast_sublist (a :: b :: t)).subset hx
        · have hhead : (a :: b :: t).dropLast.take 1 = [a] := rfl
          rw [hhead]
          have hlast : (a :: b :: t).getLast? = some a := by
            rw [← hcl]
            rfl
          have := List.dropLast_append_getLast? a hlast
          rw [this]
          exact hch
      · obtain ⟨x, l1, l2, l3, hdecomp⟩ := exists_dup_decomposition hnd
        have hw : a :: b :: t =
            l1 ++ (x :: l2 ++ [x]) ++ (l3 ++ [(a :: b :: t).getLast (by simp)]) := by
          conv =>
            left
            rw [← List.dropLast_append_getLast (l := a :: b :: t) (by simp)]
          rw [hdecomp]
          simp
        have hinfix : (x :: l2 ++ [x]) <:+: (a :: b :: t) := ⟨l1,
          l3 ++ [(a :: b :: t).getLast (by simp)], by rw [← hw]⟩
        have hch' : List.Chain' R (x :: l2 ++ [x]) := hch.infix hinfix
        have hlen' : (x :: l2 ++ [x]).length ≤ N := by
          have hc := congrArg List.length hdecomp
          simp at hc
          have hdl : (a :: b :: t).length = t.length + 2 := by simp
          have hN' : t.length + 2 ≤ N + 1 := by
            rw [← hdl]
            exact hN
          simp only [List.length_cons, List.length_append, List.length_singleton,
            List.length_nil]
          omega
        have hlen2 : 2 ≤ (x :: l2 ++ [x]).length := by
          simp only [List.length_cons, List.length_append, List.length_singleton,
            List.length_nil]
          omega
        have hcl' : (x :: l2 ++ [x]).head? = (x :: l2 ++ [x]).getLast? := by
          have hgl : (x :: l2 ++ [x]).getLast? = some x := List.getLast?_concat _
          rw [hgl]
          rfl
        obtain ⟨c, hc1, hc2, hc3, hc4⟩ := ih (x :: l2 ++ [x]) hlen' hlen2 hch' hcl'
        exact ⟨c, hc1, hc2, fun y hy => hinfix.subset (hc3 y hy), hc4⟩

theorem chain'_cycle_rotate_one {α : Type} {R : α → α → Prop} {c : List α}
    (h : List.Chain' R (c ++ c.take 1)) :
    List.Chain' R (c.rotate 1 ++ (c.rotate 1).take 1) := by
  match c with
  | [] => simpa using h
  | [a] =>
    rw [List.rotate_singleton]
    exact h
  | a :: b :: t =>
    have hrot : (a :: b :: t).rotate 1 = (b :: t) ++ [a] := by
      rw [List.rotate_cons_succ, List.rotate_zero]
    rw [hrot]
    have htake : ((b :: t) ++ [a]).take 1 = [b] := rfl
    rw [htake]
    have hgiven : List.Chain' R (a :: (b :: (t ++ [a]))) := by
      have heq : (a :: b :: t) ++ (a :: b :: t).take 1 = a :: (b :: (t ++ [a])) := by
        simp
      rw [heq] at h
      exact h
    rw [List.chain'_cons] at hgiven
    refine List.chain'_append.2 ⟨hgiven.2, List.chain'_singleton b, ?_⟩
    intro x hx y hy
    have hgl : ((b :: t) ++ [a]).getLast? = some a := List.getLast?_concat _
    rw [hgl] at hx
    have hx' : x = a := by
      have := hx
      simp at this
      exact this.symm
    have hy' : y = b := by
      have := hy
      simp at this
      exact this.symm
    rw [hx', hy']
    exact hgiven.1

theorem chain'_cycle_rotate {α : Type} {R : α → α → Prop} {c : List α}
    (h : List.Chain' R (c ++ c.take 1)) :
    ∀ k, List.Chain' R (c.rotate k ++ (c.rotate k).take 1) := by
  intro k
  induction k generalizing c with
  | zero => simpa [List.rotate_zero] using h
  | succ k ih =>
    have h1 := chain'_cycle_rotate_one h
    have h2 := ih h1
    rw [List.rotate_rotate] at h2
    have heq : c.rotate (1 + k) = c.rotate (k + 1) := by rw [Nat.add_comm]
    rw [heq] at h2
    exact h2

theorem elemPy_perm {c c' : List XlsFormRow} (h : c.Perm c') (v : XlsFormRow) :
    elemPy v c = elemPy v c' := by
  cases hv : elemPy v c' with
  | true =>
    obtain ⟨b, hb, hpb⟩ := elemPy_iff.1 hv
    exact elemPy_iff.2 ⟨b, h.mem_iff.2 hb, hpb⟩
  | false =>
    cases hv2 : elemPy v c with
    | false => rfl
    | true =>
      obtain ⟨b, hb, hpb⟩ := elemPy_iff.1 hv2
      have : elemPy v c' = true := elemPy_iff.2 ⟨b, h.mem_iff.1 hb, hpb⟩
      rw [hv] at this
      cases this

theorem find?_ext {p q : XlsFormRow → Bool} {l : List XlsFormRow}
    (h : ∀ x ∈ l, p x = q x) : l.find? p = l.find? q := by
  induction l with
  | nil => rfl
  | cons a t ih =>
    have ha := h a (List.mem_cons_self a t)
    rw [List.find?_cons, List.find?_cons, ha]
    cases q a with
    | true => rfl
    | false => exact ih (fun x hx => h x (List.mem_cons_of_mem a hx))

theorem find?_pred_true {p : XlsFormRow → Bool} {l : List XlsFormRow} {a : XlsFormRow}
    (h : l.find? p = some a) : p a = true := by
  induction l with
  | nil => cases h
  | cons x t ih =>
    rw [List.find?_cons] at h
    cases hx : p x with
    | true =>
      rw [hx] at h
      simp at h
      rw [← h]
      exact hx
    | false =>
      rw [hx] at h
      exact ih h

theorem nodup_subset_length_le {l1 l2 : List XlsFormRow} (hnd : l1.Nodup)
    (hsub : ∀ x ∈ l1, x ∈ l2) : l1.length ≤ l2.length :=
  (List.subperm_of_subset hnd hsub).length_le

/-- Every listed simple cycle is a real one: non-empty, duplicate-free,
through graph nodes, with all consecutive edges and the closing edge. -/
theorem simple_cycles_mem_parts {g : OdkGraph} {c : List XlsFormRow}
    (hc : c ∈ g.simple_cycles) :
    c ≠ [] ∧ c.Nodup ∧ (∀ x ∈ c, x ∈ g.ordered_nodes) ∧
      List.Chain' (fun a b => edgeMem g a b = true) (c ++ c.take 1) := by
  unfold OdkGraph.simple_cycles at hc
  have hf := List.mem_filter.1 hc
  obtain ⟨s, hs, hcs⟩ := List.mem_flatMap.1 hf.1
  have hperm : c.Perm s := List.mem_permutations'.1 hcs
  have hsl : s.Sublist g.ordered_nodes := List.mem_sublists.1 hs
  have hpred := hf.2
  unfold isSimpleCycleList at hpred
  simp only [Bool.and_eq_true] at hpred
  obtain ⟨⟨⟨hne, hnd⟩, hchain⟩, _⟩ := hpred
  refine ⟨?_, ?_, ?_, ?_⟩
  · rw [Bool.not_eq_true', List.isEmpty_eq_false] at hne
    exact hne
  · exact of_decide_eq_true hnd
  · intro x hx
    exact hsl.subset (hperm.mem_iff.1 hx)
  · exact chainB_iff.1 hchain

/-- If the graph has any simple cycle through its nodes, the canonical
rotation of that cycle is listed by the enumeration. -/
theorem simple_cycles_ne_nil_of_cycle {g : OdkGraph}
    (hpw : List.Pairwise (fun a b : XlsFormRow => a.rowx < b.rowx) g.ordered_nodes)
    {c : List XlsFormRow} (hne : c ≠ []) (hnd : c.Nodup)
    (hsub : ∀ x ∈ c, x ∈ g.ordered_nodes)
    (hch : List.Chain' (fun a b => edgeMem g a b = true) (c ++ c.take 1)) :
    g.simple_cycles ≠ [] := by
  have hndV := nodup_of_pairwise_rowx hpw
  obtain ⟨h0, hh0⟩ := List.exists_mem_of_ne_nil c hne
  have hfsome : (g.ordered_nodes.find? (fun v => elemPy v c)).isSome := by
    rw [List.find?_isSome]
    exact ⟨h0, hsub h0 hh0, elemPy_of_mem hh0⟩
  cases hfind : g.ordered_nodes.find? (fun v => elemPy v c) with
  | none => rw [hfind] at hfsome; cases hfsome
  | some v0 =>
    have hv0nodes : v0 ∈ g.ordered_nodes := List.mem_of_find?_eq_some hfind
    have hv0c : v0 ∈ c := by
      have hp0' : elemPy v0 c = true := find?_pred_true hfind
      obtain ⟨b, hb, hpb⟩ := elemPy_iff.1 hp0'
      exact (pyEq_eq_of_pairwise hpw hv0nodes (hsub b hb) hpb) ▸ hb
    obtain ⟨k, hk, hgetk⟩ := List.mem_iff_getElem.1 hv0c
    have hrotperm := List.rotate_perm c k
    have hhead : (c.rotate k).head? = some v0 := by
      rw [List.head?_rotate hk]
      rw [List.getElem?_eq_getElem hk]
      rw [hgetk]
    have hne' : c.rotate k ≠ [] := by
      intro hnil
      rw [hnil] at hhead
      cases hhead
    have hnd' : (c.rotate k).Nodup := hrotperm.nodup_iff.2 hnd
    have hsub' : ∀ x ∈ c.rotate k, x ∈ g.ordered_nodes :=
      fun x hx => hsub x (hrotperm.mem_iff.1 hx)
    have hch' := chain'_cycle_rotate hch k
    have hcanon : canonHead g (c.rotate k) = true := by
      unfold canonHead
      have hfind' : g.ordered_nodes.find? (fun v => elemPy v (c.rotate k)) = some v0 := by
        rw [find?_ext (fun x _ => elemPy_perm hrotperm x), hfind]
      rw [hfind', hhead]
      exact pyEq_refl v0
    have hmemenum : c.rotate k ∈
        g.ordered_nodes.sublists.flatMap List.permutations' := by
      refine List.mem_flatMap.2
        ⟨g.ordered_nodes.filter (fun v => v ∈ c.rotate k), ?_, ?_⟩
      · exact List.mem_sublists.2 (List.filter_sublist _)
      · refine List.mem_permutations'.2 ?_
        refine (List.perm_ext_iff_of_nodup hnd' (hndV.filter _)).2 ?_
        intro a
        rw [List.mem_filter]
        constructor
        · intro ha
          exact ⟨hsub' a ha, by simpa using ha⟩
        · intro ha
          simpa using ha.2
    have hmemcycles : c.rotate k ∈ g.simple_cycles := by
      unfold OdkGraph.simple_cycles
      refine List.mem_filter.2 ⟨hmemenum, ?_⟩
      unfold isSimpleCycleList
      simp only [Bool.and_eq_true]
      refine ⟨⟨⟨?_, decide_eq_true hnd'⟩, chainB_iff.2 hch'⟩, hcanon⟩
      rw [Bool.not_eq_true', List.isEmpty_eq_false]
      exact hne'
    exact List.ne_nil_of_mem hmemcycles

/-- A listed (or extracted) simple cycle forces the DAG check to answer
false: the cycle's head has an edge into a vertex from which the head is
reachable. -/
theorem is_dag_false_of_cycle {g : OdkGraph}
    {c : List XlsFormRow} (hne : c ≠ []) (hnd : c.Nodup)
    (hsub : ∀ x ∈ c, x ∈ g.ordered_nodes)
    (hch : List.Chain' (fun a b => edgeMem g a b = true) (c ++ c.take 1)) :
    g.is_directed_acyclic_graph = false := by
  match c, hne with
  | v :: rest, _ =>
    have hv : v ∈ g.ordered_nodes := hsub v (List.mem_cons_self v rest)
    have hlenc : (v :: rest).length ≤ g.ordered_nodes.length :=
      nodup_subset_length_le hnd hsub
    have hinner : (g.ordered_nodes.any
        (fun w => edgeMem g v w && elemPy w (reachTo g v))) = true := by
      match rest with
      | [] =>
        have hvv : edgeMem g v v = true := by
          have : List.Chain' (fun a b => edgeMem g a b = true) [v, v] := hch
          rw [List.chain'_cons] at this
          exact this.1
        refine List.any_eq_true.2 ⟨v, hv, ?_⟩
        rw [Bool.and_eq_true]
        refine ⟨hvv, ?_⟩
        exact elemPy_iterate (elemPy_of_mem (List.mem_singleton.2 rfl)) _
      | b :: t =>
        have hch2 : List.Chain' (fun a b => edgeMem g a b = true)
            (v :: b :: (t ++ [v])) := by
          have heq : (v :: b :: t) ++ (v :: b :: t).take 1 = v :: b :: (t ++ [v]) := by
            simp
          rw [heq] at hch
          exact hch
        rw [List.chain'_cons] at hch2
        have hblast : (b :: (t ++ [v])).getLast? = some v := by
          have : b :: (t ++ [v]) = (b :: t) ++ [v] := by simp
          rw [this, List.getLast?_concat]
        have hbmem : ∀ y ∈ b :: (t ++ [v]), y ∈ g.ordered_nodes := by
          intro y hy
          rcases List.mem_cons.1 hy with rfl | hy'
          · exact hsub y (List.mem_cons_of_mem v (List.mem_cons_self y t))
          · rcases List.mem_append.1 hy' with hy2 | hy2
            · exact hsub y (List.mem_cons_of_mem v (List.mem_cons_of_mem b hy2))
            · rcases List.mem_singleton.1 hy2 with rfl
              exact hv
        have hlen : (t ++ [v]).length ≤ g.ordered_nodes.length := by
          simp only [List.length_append, List.length_singleton]
          simp only [List.length_cons] at hlenc
          omega
        have hreach := reachTo_complete g.ordered_nodes.length (t ++ [v]) b hlen
          hch2.2 hblast hbmem
        refine List.any_eq_true.2 ⟨b, hsub b (List.mem_cons_of_mem v (List.mem_cons_self b t)), ?_⟩
        rw [Bool.and_eq_true]
        exact ⟨hch2.1, hreach⟩
    cases hall : g.is_directed_acyclic_graph with
    | false => rfl
    | true =>
      exfalso
      unfold OdkGraph.is_directed_acyclic_graph at hall
      have := List.all_eq_true.1 hall v hv
      rw [hinner] at this
      cases this

/-- A false DAG answer yields a simple cycle through graph vertices. -/
theorem cycle_of_is_dag_false {g : OdkGraph}
    (h : g.is_directed_acyclic_graph = false) :
    ∃ c, c ≠ [] ∧ c.Nodup ∧ (∀ x ∈ c, x ∈ g.ordered_nodes) ∧
      List.Chain' (fun a b => edgeMem g a b = true) (c ++ c.take 1) := by
  unfold OdkGraph.is_directed_acyclic_graph at h
  obtain ⟨v, hv, hvp⟩ := List.all_eq_false.1 h
  have hany : (g.ordered_nodes.any
      (fun w => edgeMem g v w && elemPy w (reachTo g v))) = true := by
    cases hq : g.ordered_nodes.any (fun w => edgeMem g v w && elemPy w (reachTo g v)) with
    | true => rfl
    | false =>
      exfalso
      apply hvp
      rw [hq]
      rfl
  obtain ⟨w, hw, hwp⟩ := List.any_eq_true.1 hany
  rw [Bool.and_eq_true] at hwp
  obtain ⟨w', hw', hpw'⟩ := elemPy_iff.1 hwp.2
  have hedge : edgeMem g v w' = true := by
    rw [← edgeMem_congr (pyEq_refl v) hpw']
    exact hwp.1
  obtain ⟨p, hchp, hlastp, hmemp⟩ := reachTo_sound hw'
  have hchw : List.Chain' (fun a b => edgeMem g a b = true) (v :: w' :: p) := by
    rw [List.chain'_cons]
    exact ⟨hedge, hchp⟩
  have hclw : (v :: w' :: p).head? = (v :: w' :: p).getLast? := by
    rw [List.getLast?_cons_cons, hlastp]
    rfl
  obtain ⟨c, hc1, hc2, hc3, hc4⟩ := exists_cycle_of_closed_walk
    (v :: w' :: p).length (v :: w' :: p) (Nat.le_refl _) (by simp) hchw hclw
  refine ⟨c, hc1, hc2, ?_, hc4⟩
  intro x hx
  rcases List.mem_cons.1 (hc3 x hx) with rfl | hx'
  · exact hv
  · rcases hmemp x hx' with rfl | hx2
    · exact hv
    · exact hx2

/-- C8: for every constructed graph, the DAG check answers true exactly
when the simple-cycle enumeration is empty. -/
theorem c8_dag_iff_no_cycles {sheet : List (List String)} {g : OdkGraph}
    (h : OdkGraph.build sheet = .ok g) :
    g.is_directed_acyclic_graph = true ↔ g.simple_cycles = [] := by
  have hpw := build_ok_pairwise h
  constructor
  · intro hdag
    by_contra hne
    obtain ⟨c, hc⟩ := List.exists_mem_of_ne_nil _ hne
    obtain ⟨h1, h2, h3, h4⟩ := simple_cycles_mem_parts hc
    have := is_dag_false_of_cycle h1 h2 h3 h4
    rw [hdag] at this
    cases this
  · intro hcyc
    cases hdag : g.is_directed_acyclic_graph with
    | true => rfl
    | false =>
      obtain ⟨c, h1, h2, h3, h4⟩ := cycle_of_is_dag_false hdag
      exact absurd hcyc (simple_cycles_ne_nil_of_cycle hpw h1 h2 h3 h4)

/-- Witness for C8 at the group fixture graph, which is acyclic. -/
theorem c8_dag_iff_no_cycles_witness :
    gGrp.is_directed_acyclic_graph = true ↔ gGrp.simple_cycles = [] :=
  c8_dag_iff_no_cycles build_gGrp
